import Mathlib

/-!
# SATEnigma: the Zebra puzzle as a SAT instance

A shallow embedding of `src/main.cpp`.  The program keeps four pieces of
global state: the literals handed to the solver (`solver.add`), the counter
`numberOfClauses`, the function-local static `litNumber` of `get_new_lit`,
and the table `var2lit`.  They are the four fields of `State`; every function
of the source that touches them is a function on `State`.

Reading `var2lit[var][i]` outside the vector, and leaving `get_house` without
a `return`, are undefined in the source: the embedding returns `none` there.
-/

namespace SATEnigma

/-! ## Data of the puzzle -/

def NUM_ATTRIBUTES : Nat := 5

def nationalites : List String := ["Britannique", "Suedois", "Danois", "Norvegien", "Allemand"]
def boissons : List String := ["The", "Eau", "Cafe", "Lait", "Biere"]
def couleurs : List String := ["Rouge", "Bleue", "Jaune", "Verte", "Blanche"]
def cigarettes : List String := ["Blend", "Prince", "Dunhill", "Bluemaster", "Pall Mall"]
def animaux : List String := ["Chiens", "Oiseaux", "Chats", "Chevaux", "Poissons"]

def arrayPtrs : List (List String) := [nationalites, boissons, couleurs, cigarettes, animaux]

/-! ## Global state -/

structure State where
  /-- every integer passed to `solver.add`, newest first -/
  stream : List Int
  numberOfClauses : Int
  /-- the static counter inside `get_new_lit` -/
  litNumber : Int
  var2lit : String → List Int

def init : State :=
  { stream := [], numberOfClauses := 0, litNumber := 0, var2lit := fun _ => [] }

/-- The call `solver.add(lit)`: hand one integer to the solver. -/
def solver_add (lit : Int) (s : State) : State :=
  { s with stream := lit :: s.stream }

/-- The overload `add(const vector<int>&)`: add a clause. -/
def add (clause : List Int) (s : State) : State :=
  let s1 := { s with numberOfClauses := s.numberOfClauses + 1 }
  let s2 := clause.foldl (fun st lit => solver_add lit st) s1
  solver_add 0 s2

/-- The overload `add(const int)`: add a single literal. -/
def add_lit (lit : Int) (s : State) : State :=
  let s1 := if lit = 0 then { s with numberOfClauses := s.numberOfClauses + 1 } else s
  solver_add lit s1

/-- The function `encode_am1`: the naive pairwise encoding, followed by the clause of all
literals.  The indices `i` and `j` stay below `clause.size()`, so the default
of `getD` is never read. -/
def encode_am1 (clause : List Int) (s : State) : State :=
  let s1 := (List.range clause.length).foldl (fun st i =>
      (List.range' (i + 1) (clause.length - (i + 1))).foldl (fun st2 j =>
        add [-(clause.getD i 0), -(clause.getD j 0)] st2) st) s
  let s2 := clause.foldl (fun st lit => add_lit lit st) s1
  add_lit 0 s2

/-- The function `get_new_lit`: pre-increment of the static counter. -/
def get_new_lit (s : State) : Int × State :=
  (s.litNumber + 1, { s with litNumber := s.litNumber + 1 })

/-- The function `encode_double_implication`.  The source negates two `int`s;
the negation of the least `int` overflows there, which is undefined, so this
definition is exact for literals of absolute value at most `INT_MAX` (see
`representable`) and theorems about arbitrary literals assume that bound. -/
def encode_double_implication (lit1 lit2 : Int) (s : State) : State :=
  add [-lit1, lit2] (add [lit1, -lit2] s)

/-- The call `var2lit[var].resize(n)`: truncate or pad with zeros. -/
def resize (v : List Int) (n : Nat) : List Int :=
  v.take n ++ List.replicate (n - v.length) 0

/-- The assignment `var2lit[var][j] = x`. -/
def setLit (var : String) (j : Nat) (x : Int) (s : State) : Option State :=
  if j < (s.var2lit var).length then
    some { s with var2lit := fun k => if k = var then (s.var2lit var).set j x else s.var2lit k }
  else none

/-- The read `var2lit[var][i]`. -/
def lit (s : State) (var : String) (i : Nat) : Option Int :=
  (s.var2lit var)[i]?

def populate_map (vars : List String) (s : State) : Option State :=
  (List.range NUM_ATTRIBUTES).foldlM (fun st i => do
    let var ← vars[i]?
    let st1 : State :=
      { st with var2lit := fun k => if k = var then resize (st.var2lit var) NUM_ATTRIBUTES
                                    else st.var2lit k }
    let st2 ← (List.range NUM_ATTRIBUTES).foldlM (fun st3 j =>
      let (x, st4) := get_new_lit st3
      setLit var j x st4) st1
    pure (encode_am1 (st2.var2lit var) st2)) s

def assign_vars_to_lits (s : State) : Option State :=
  arrayPtrs.foldlM (fun st array => populate_map array st) s

def restrict_var (vars : List String) (s : State) : Option State :=
  (List.range NUM_ATTRIBUTES).foldlM (fun st i => do
    let v0 ← vars[0]?
    let l0 ← lit st v0 i
    let v1 ← vars[1]?
    let l1 ← lit st v1 i
    let v2 ← vars[2]?
    let l2 ← lit st v2 i
    let v3 ← vars[3]?
    let l3 ← lit st v3 i
    let v4 ← vars[4]?
    let l4 ← lit st v4 i
    pure (encode_am1 [l0, l1, l2, l3, l4] st)) s

def encode_at_most_one_per_house (s : State) : Option State :=
  arrayPtrs.foldlM (fun st array => restrict_var array st) s

/-! ## The solver's answer -/

/-- The assignment found by the external solver: a truth value for every
variable id. -/
abbrev Assignment := Nat → Bool

/-- Truth of a (non-zero) literal under an assignment. -/
def litTrue (a : Assignment) (l : Int) : Bool :=
  if 0 < l then a l.natAbs else !(a l.natAbs)

/-- The call `solver.val(lit)`: `lit` when the literal is true, `-lit` when it is false. -/
def val (a : Assignment) (l : Int) : Int :=
  if litTrue a l then l else -l

def get_house_loop (a : Assignment) (lits : List Int) : Nat → Nat → Option Nat
  | _, 0 => none
  | i, fuel + 1 =>
    match lits[i]? with
    | none => none
    | some l => if val a l > 0 then some i else get_house_loop a lits (i + 1) fuel

/-- The function `get_house`: the first position whose literal is true; the source has no
`return` after the loop, so the result is undefined (`none`) when no literal
is true. -/
def get_house (s : State) (a : Assignment) (var : String) : Option Nat :=
  get_house_loop a (s.var2lit var) 0 NUM_ATTRIBUTES

def encode_linked_attributes (att1 att2 : String) (s : State) : Option State :=
  (List.range NUM_ATTRIBUTES).foldlM (fun st i => do
    let lit1 ← lit st att1 i
    let lit2 ← lit st att2 i
    pure (encode_double_implication lit1 lit2 st)) s

def encode_attribute_left (att1 att2 : String) (s : State) : Option State :=
  (List.range (NUM_ATTRIBUTES - 1)).foldlM (fun st i => do
    let lit1 ← lit st att1 i
    let lit2 ← lit st att2 (i + 1)
    pure (encode_double_implication lit1 lit2 st)) s

/-- The read `var2lit[var][position]`, where `position` is an `int`: a negative index is outside the
vector as well. -/
def litAt (s : State) (var : String) (position : Int) : Option Int :=
  if 0 ≤ position then lit s var position.toNat else none

def encode_attribute_forced_position (att : String) (position : Int) (s : State) : Option State := do
  let l ← litAt s att position
  pure (add_lit 0 (add_lit l s))

def encode_attribute_between (att1 att2 : String) (position1 : Int) (s : State) : Option State := do
  let lit1 ← litAt s att1 position1
  let lit2Left ← litAt s att2 (position1 - 1)
  let lit2Right ← litAt s att2 (position1 + 1)
  pure (add [lit2Left, -lit1, lit2Right] (add [-lit2Left, lit1, -lit2Right] s))

def encode_implication (att1 att2 : String) (position1 position2 : Int) (s : State) : Option State := do
  let lit1 ← litAt s att1 position1
  let lit2 ← litAt s att2 position2
  pure (add [-lit1, lit2] s)

def encode_attribute_immediate_proximity (att1 att2 : String) (s : State) : Option State := do
  let s1 ← encode_implication att1 att2 0 1 s
  let s2 ← (List.range' 1 (NUM_ATTRIBUTES - 1 - 1)).foldlM (fun st i =>
    encode_attribute_between att1 att2 (i : Int) st) s1
  encode_implication att1 att2 4 3 s2

/-- The function `populate_lit_values_array`: `toPopulate[get_house(vars[i])] = vars[i]`. -/
def populate_lit_values_array (s : State) (a : Assignment) (vars : List String)
    (toPopulate : List String) : Option (List String) :=
  (List.range NUM_ATTRIBUTES).foldlM (fun out i => do
    let var ← vars[i]?
    let h ← get_house s a var
    if h < out.length then pure (out.set h var) else none) toPopulate

/-- The array `string lits…[NUM_ATTRIBUTES]` of `print_table`, filled by
`populate_lit_values_array`. -/
def decode (s : State) (a : Assignment) (vars : List String) : Option (List String) :=
  populate_lit_values_array s a vars (List.replicate NUM_ATTRIBUTES "")

/-- The calls of `main`, lines 234 to 281, in order: registration, exclusivity
per house, and the fifteen clues. -/
def mainCalls : List (State → Option State) :=
  [ assign_vars_to_lits,
    encode_at_most_one_per_house,
    encode_linked_attributes "Britannique" "Rouge",
    encode_linked_attributes "Suedois" "Chiens",
    encode_linked_attributes "Danois" "The",
    encode_attribute_left "Verte" "Blanche",
    encode_linked_attributes "Verte" "Cafe",
    encode_linked_attributes "Pall Mall" "Oiseaux",
    encode_linked_attributes "Jaune" "Dunhill",
    encode_attribute_forced_position "Lait" 2,
    encode_attribute_forced_position "Norvegien" 0,
    encode_attribute_immediate_proximity "Blend" "Chats",
    encode_attribute_immediate_proximity "Chevaux" "Dunhill",
    encode_linked_attributes "Bluemaster" "Biere",
    encode_linked_attributes "Allemand" "Prince",
    encode_attribute_immediate_proximity "Norvegien" "Bleue",
    encode_attribute_immediate_proximity "Blend" "Eau" ]

/-- The encoding phase of `main`, run from state `s`. -/
def encode_puzzle (s : State) : Option State :=
  mainCalls.foldlM (fun st call => call st) s

/-! ## Clauses of a stream -/

/-- Split the solver's input at the terminators `0`; `cur` is the clause
being read.  Literals after the last `0` do not form a clause. -/
def clausesAux : List Int → List Int → List (List Int)
  | _, [] => []
  | cur, x :: rest =>
    if x = 0 then cur :: clausesAux [] rest else clausesAux (cur ++ [x]) rest

/-- The clauses of a solver input given in the order it was sent. -/
def clausesOf (stream : List Int) : List (List Int) := clausesAux [] stream

/-- The clauses the solver has received in state `s`. -/
def clauses (s : State) : List (List Int) := clausesOf s.stream.reverse

def clauseTrue (a : Assignment) (c : List Int) : Bool := c.any (litTrue a)

/-- The assignment satisfies every clause of the list. -/
def satisfies (a : Assignment) (cs : List (List Int)) : Bool :=
  cs.all (clauseTrue a)

/-- The clauses sent to the solver between state `s` and the later state `t`. -/
def emitted (s t : State) : List (List Int) :=
  clausesOf (t.stream.take (t.stream.length - s.stream.length)).reverse

/-- All 25 values of the puzzle, category by category. -/
def allValues : List String := arrayPtrs.flatten

/-- The value `v` is one of the 25 values of the puzzle and the table of `s`
holds for it the literals that `assign_vars_to_lits` gave it. -/
def Registered (s : State) (v : String) : Prop :=
  v ∈ allValues ∧ ∃ reg, assign_vars_to_lits init = some reg ∧ s.var2lit v = reg.var2lit v

/-- Exactly one literal of the list is true. -/
def exactlyOne (a : Assignment) (lits : List Int) : Prop :=
  lits.countP (litTrue a) = 1

instance (a : Assignment) (lits : List Int) : Decidable (exactlyOne a lits) :=
  inferInstanceAs (Decidable (lits.countP (litTrue a) = 1))

/-- The state of `main` after line 234, `assign_vars_to_lits()`. -/
def registeredState : State := (assign_vars_to_lits init).getD init

/-- The variables that are true in the solution of the puzzle. -/
def solutionVars : List Nat :=
  [3, 10, 12, 16, 24, 27, 31, 39, 43, 50, 53, 57, 61, 69, 75, 77, 84, 86, 95, 98, 105, 108,
    111, 117, 124]

/-- The assignment that makes exactly the variables of `solutionVars` true. -/
def solution : Assignment := fun v => decide (v ∈ solutionVars)

/-- The literal of value `v` at house `p` is true under `a`. -/
def isAt (s : State) (a : Assignment) (v : String) (p : Int) : Bool :=
  match litAt s v p with
  | some l => litTrue a l
  | none => false

/-- An assignment that puts `Verte` in the last house and `Blanche` in the
first one: variables 70 and 71. -/
def wrapAround : Assignment := fun v => decide (v = 70 ∨ v = 71)

/-- An assignment that puts `Blend` in house 0 and `Chats` in house 1:
variables 76 and 112. -/
def blendFirst : Assignment := fun v => decide (v = 76 ∨ v = 112)

/-! ## Vocabulary of the proofs and a checker for refutations -/

/-- Is the list five consecutive positive integers? -/
def consecutive5 (l : List Int) : Bool :=
  match l with
  | [x0, x1, x2, x3, x4] => decide (0 < x0) && x1 == x0 + 1 && x2 == x0 + 2 && x3 == x0 + 3 && x4 == x0 + 4
  | _ => false

/-- The solver input that spells out a list of clauses. -/
def flat (cs : List (List Int)) : List Int := cs.flatMap (fun c => c ++ [0])

/-- The pairwise exclusions of `encode_am1`, by recursion on the list. -/
def pairClauses : List Int → List (List Int)
  | [] => []
  | x :: r => r.map (fun y => [-x, -y]) ++ pairClauses r

/-- All clauses of `encode_am1`: the exclusions, then the clause of all literals. -/
def am1Clauses (c : List Int) : List (List Int) := pairClauses c ++ [c]

/-- The table `var2lit` after registration: value `i` of `allValues` owns the
variables `5 i + 1` to `5 i + 5`. -/
def registryTable : List (List Int) :=
  (List.range 25).map (fun i : Nat =>
    [5 * (i : Int) + 1, 5 * (i : Int) + 2, 5 * (i : Int) + 3, 5 * (i : Int) + 4, 5 * (i : Int) + 5])

/-- The literals of the values of a category at house `i`. -/
def column (s : State) (a : List String) (i : Nat) : List Int :=
  a.filterMap (fun v => lit s v i)

/-- The 50 groups of literals that `assign_vars_to_lits` and
`encode_at_most_one_per_house` hand to `encode_am1`, in order. -/
def groups (s : State) : List (List Int) :=
  allValues.map s.var2lit ++
    arrayPtrs.flatMap (fun array => (List.range NUM_ATTRIBUTES).map (column s array))

/-- The grid of the solution, one row per category of `arrayPtrs`, houses 0 to 4. -/
def solutionGrid : List (List String) :=
  [["Norvegien", "Danois", "Britannique", "Allemand", "Suedois"],
   ["Eau", "The", "Lait", "Cafe", "Biere"],
   ["Jaune", "Bleue", "Rouge", "Verte", "Blanche"],
   ["Dunhill", "Blend", "Pall Mall", "Prince", "Bluemaster"],
   ["Chats", "Chevaux", "Oiseaux", "Poissons", "Chiens"]]

/-- An assignment with `Britannique` and `Suedois` both in house 0 (variables
1 and 6), `Danois` in house 2, `Norvegien` in 3 and `Allemand` in 4. -/
def clash : Assignment := fun v => decide (v ∈ [1, 6, 13, 19, 25])

/-- A clause as two bit sets: the variables that occur positively and those
that occur negatively. -/
def toMask : List Int → Nat × Nat
  | [] => (0, 0)
  | l :: r =>
    if 0 < l then ((toMask r).1 ||| 2 ^ l.natAbs, (toMask r).2)
    else ((toMask r).1, (toMask r).2 ||| 2 ^ l.natAbs)

/-- A guess of the index of the highest set bit of `x`, by halving the
widths in `ws`. -/
def bitIndexAux : List Nat → Nat → Nat → Nat
  | [], _, acc => acc
  | w :: ws, x, acc =>
    if Nat.ble (2 ^ w) x then bitIndexAux ws (x >>> w) (acc + w) else bitIndexAux ws x acc

def bitIndex (x : Nat) : Nat := bitIndexAux [64, 32, 16, 8, 4, 2, 1] x 0

/-- Is `r` a power of two, and which one?  The cheap test `r &&& (r - 1) = 0`
only filters; the answer is checked against `2 ^ bitIndex r`. -/
def isUnit (r : Nat) : Bool :=
  Nat.beq (r &&& (r - 1)) 0 && Nat.beq r (2 ^ bitIndex r)

/-- One pass of unit propagation over the clauses; `T` and `F` are the sets of
variables known to be true and false.  `none` is a conflict. -/
def propagate : List (Nat × Nat) → Nat → Nat → Option (Nat × Nat)
  | [], T, F => some (T, F)
  | (P, N) :: cs, T, F =>
    if Nat.beq (P ^^^ (P &&& F)) 0 then
      if Nat.beq (N ^^^ (N &&& T)) 0 then none
      else if isUnit (N ^^^ (N &&& T)) then propagate cs T (F ||| (N ^^^ (N &&& T)))
      else propagate cs T F
    else if Nat.beq (N ^^^ (N &&& T)) 0 then
      if isUnit (P ^^^ (P &&& F)) then propagate cs (T ||| (P ^^^ (P &&& F))) F
      else propagate cs T F
    else propagate cs T F

/-- A refutation script: propagate once more, or split on a variable. -/
inductive Script where
  | stop : Script
  | pass : Script → Script
  | split : Nat → Script → Script → Script

/-- Run a script from the partial assignment `T`, `F`; `true` means that every
branch ended in a conflict. -/
def refuteBy : Script → List (Nat × Nat) → Nat → Nat → Bool
  | Script.stop, _, _, _ => false
  | Script.pass next, cs, T, F =>
    match propagate cs T F with
    | none => true
    | some (T', F') => refuteBy next cs T' F'
  | Script.split k yes no, cs, T, F =>
    refuteBy yes cs (T ||| 2 ^ k) F && refuteBy no cs T (F ||| 2 ^ k)

/-- The script `pass` repeated `n` times. -/
def passes : Nat → Script → Script
  | 0, sc => sc
  | n + 1, sc => Script.pass (passes n sc)

/-- The refutation of a second solution of the puzzle. -/
def uniquenessScript : Script :=
  passes 3 (Script.split 71
    (passes 2 (Script.split 53
    (passes 2 (Script.split 31 (passes 2 Script.stop)
    (passes 2 (Script.split 10
    (passes 3 Script.stop)
    (passes 4 Script.stop)))))
    (passes 7 Script.stop)))
    (passes 8 Script.stop))

/-- The clause that is false exactly under `solution` on the variables 1..125. -/
def blocking : List Int :=
  (List.range' 1 125).map (fun v => if v ∈ solutionVars then -(v : Int) else (v : Int))

/-- The assignment `a` extends the partial assignment `T`, `F`. -/
def agrees (a : Assignment) (T F : Nat) : Prop :=
  ∀ v, (T.testBit v = true → a v = true) ∧ (F.testBit v = true → a v = false)

/-- The clause with positive variables `c.1` and negative variables `c.2` is
true under `a`. -/
def maskTrue (a : Assignment) (c : Nat × Nat) : Prop :=
  ∃ v, (c.1.testBit v = true ∧ a v = true) ∨ (c.2.testBit v = true ∧ a v = false)

/-! ## Vocabulary of the later statements -/

/-- The greatest value of the 32-bit `int` of the source. -/
def INT_MAX : Int := 2147483647

/-- The literal and its negation are both values of the 32-bit `int` of the
source: `-INT_MAX ≤ l ≤ INT_MAX`.  The least `int`, `-INT_MAX - 1`, is left
out: negating it overflows. -/
def representable (l : Int) : Prop := -INT_MAX ≤ l ∧ l ≤ INT_MAX

instance (l : Int) : Decidable (representable l) :=
  inferInstanceAs (Decidable (-INT_MAX ≤ l ∧ l ≤ INT_MAX))

/-- The lookup `var2lit[arrayPtrs[c][v]][j]`: the id of value `v` of category
`c` at house `j`. -/
def lookup (s : State) (c v j : Nat) : Option Int :=
  (arrayPtrs[c]?.bind (fun array => array[v]?)).bind (fun name => lit s name j)

/-- Every lookup of state `s` is the id `25 c + 5 v + j + 1`. -/
def lookupsDense (s : State) : Prop :=
  ∀ c, c < 5 → ∀ v, v < 5 → ∀ j, j < 5 →
    lookup s c v j = some ((25 * c + 5 * v + j + 1 : Nat) : Int)

instance (s : State) : Decidable (lookupsDense s) := by
  unfold lookupsDense
  infer_instance

/-- The solver input of state `s`, in the order it was sent, is a sequence of
clauses, each followed by its terminator `0`, and every literal of every
clause is non-zero with absolute value between 1 and the counter of
`get_new_lit`. -/
def wellFormed (s : State) : Prop :=
  s.stream.reverse = flat (clauses s) ∧
    ∀ c ∈ clauses s, ∀ l ∈ c, l ≠ 0 ∧ 1 ≤ l.natAbs ∧ (l.natAbs : Int) ≤ s.litNumber

instance (s : State) : Decidable (wellFormed s) := by
  unfold wellFormed
  infer_instance

/-- One call of the clause emitter: `add(const vector<int>&)` or `add(const int)`. -/
inductive EmitterCall where
  | vector (clause : List Int) : EmitterCall
  | literal (lit : Int) : EmitterCall

/-- Run one call of the emitter. -/
def emit : EmitterCall → State → State
  | EmitterCall.vector clause, s => add clause s
  | EmitterCall.literal l, s => add_lit l s

/-- Run a sequence of calls of the emitter, in order. -/
def emitAll (calls : List EmitterCall) (s : State) : State :=
  calls.foldl (fun st c => emit c st) s

/-- The values returned by `k` successive calls of `get_new_lit`, in order, and
the state after them. -/
def get_new_lit_calls : Nat → State → List Int × State
  | 0, s => ([], s)
  | k + 1, s =>
    ((get_new_lit s).1 :: (get_new_lit_calls k (get_new_lit s).2).1,
      (get_new_lit_calls k (get_new_lit s).2).2)

/-- The five groups of five consecutive ids that follow the id `n`. -/
def batch (n : Int) : List (List Int) :=
  (List.range 5).map (fun i : Nat =>
    [n + 5 * (i : Int) + 1, n + 5 * (i : Int) + 2, n + 5 * (i : Int) + 3, n + 5 * (i : Int) + 4,
      n + 5 * (i : Int) + 5])

/-- What two successive calls of `populate_map` on the same category leave:
`s1` after the first call, `s2` after the second. -/
def reregistered (array : List String) (s1 s2 : State) : Prop :=
  s1.litNumber = 25 ∧ s2.litNumber = 50 ∧
    array.map s1.var2lit = batch 0 ∧ array.map s2.var2lit = batch 25 ∧
    clauses s1 = (batch 0).flatMap am1Clauses ∧
    clauses s2 = (batch 0).flatMap am1Clauses ++ (batch 25).flatMap am1Clauses

instance (array : List String) (s1 s2 : State) : Decidable (reregistered array s1 s2) := by
  unfold reregistered
  infer_instance

/-- Run the calls in order and list by how much each one raises
`numberOfClauses`. -/
def clauseCounts : List (State → Option State) → State → Option (List Int)
  | [], _ => some []
  | call :: rest, s =>
    match call s with
    | none => none
    | some t =>
      match clauseCounts rest t with
      | none => none
      | some ns => some ((t.numberOfClauses - s.numberOfClauses) :: ns)

/-! ## The emitter -/

theorem solver_add_foldl (c : List Int) (s : State) :
    (c.foldl (fun st l => solver_add l st) s) = { s with stream := c.reverse ++ s.stream } := by
  induction c generalizing s with
  | nil => rfl
  | cons x r ih =>
    simp only [List.foldl_cons, ih]
    simp [solver_add]

theorem add_eq (c : List Int) (s : State) :
    add c s = { s with stream := 0 :: (c.reverse ++ s.stream),
                       numberOfClauses := s.numberOfClauses + 1 } := by
  unfold add
  simp only [solver_add_foldl]
  simp [solver_add]

theorem add_lit_zero (s : State) :
    add_lit 0 s = { s with stream := 0 :: s.stream,
                           numberOfClauses := s.numberOfClauses + 1 } := by
  simp [add_lit, solver_add]

theorem add_lit_ne (l : Int) (h : l ≠ 0) (s : State) :
    add_lit l s = { s with stream := l :: s.stream } := by
  simp [add_lit, solver_add, h]

set_option maxRecDepth 100000 in
theorem registration_table :
    (assign_vars_to_lits init).map (fun r => allValues.map r.var2lit) =
      some ((List.range 25).map (fun i : Nat =>
        [5 * (i : Int) + 1, 5 * (i : Int) + 2, 5 * (i : Int) + 3, 5 * (i : Int) + 4,
          5 * (i : Int) + 5])) := by
  decide!

theorem consecutive5_spec {l : List Int} (h : consecutive5 l = true) :
    ∃ x0 x1 x2 x3 x4 : Int, l = [x0, x1, x2, x3, x4] ∧
      0 < x0 ∧ 0 < x1 ∧ 0 < x2 ∧ 0 < x3 ∧ 0 < x4 := by
  match l, h with
  | [x0, x1, x2, x3, x4], h =>
    simp only [consecutive5, Bool.and_eq_true, decide_eq_true_eq, beq_iff_eq] at h
    obtain ⟨⟨⟨⟨h0, h1⟩, h2⟩, h3⟩, h4⟩ := h
    exact ⟨x0, x1, x2, x3, x4, rfl, by omega, by omega, by omega, by omega, by omega⟩

/-- A registered value owns five positive variable ids, one per house. -/
theorem registered_lits {s : State} {v : String} (h : Registered s v) :
    ∃ x0 x1 x2 x3 x4 : Int, s.var2lit v = [x0, x1, x2, x3, x4] ∧
      0 < x0 ∧ 0 < x1 ∧ 0 < x2 ∧ 0 < x3 ∧ 0 < x4 := by
  obtain ⟨hv, reg, hreg, hs⟩ := h
  have ht := registration_table
  rw [hreg] at ht
  simp only [Option.map_some', Option.some.injEq] at ht
  have hall : ∀ l ∈ allValues.map reg.var2lit, consecutive5 l = true := by
    rw [ht]; decide
  rw [hs]
  exact consecutive5_spec (hall _ (List.mem_map_of_mem _ hv))

/-! ## What the encoders of the clues send -/

theorem proximity_eq {s : State} {A B : String} {x0 x1 x2 x3 x4 y0 y1 y2 y3 y4 : Int}
    (hA : s.var2lit A = [x0, x1, x2, x3, x4]) (hB : s.var2lit B = [y0, y1, y2, y3, y4]) :
    encode_attribute_immediate_proximity A B s =
      some { s with
        stream := [0, y3, -x4, 0, y4, -x3, y2, 0, -y4, x3, -y2, 0, y3, -x2, y1, 0, -y3, x2, -y1,
                   0, y2, -x1, y0, 0, -y2, x1, -y0, 0, y1, -x0] ++ s.stream,
        numberOfClauses := s.numberOfClauses + 8 } := by
  simp [encode_attribute_immediate_proximity, encode_implication, encode_attribute_between,
    litAt, lit, hA, hB, add_eq, NUM_ATTRIBUTES, List.range', bind, Option.bind]
  omega

theorem litTrue_pos (a : Assignment) (x : Int) (hx : 0 < x) :
    litTrue a x = a x.natAbs := by
  simp [litTrue, hx]

theorem litTrue_neg (a : Assignment) (x : Int) (hx : 0 < x) :
    litTrue a (-x) = !a x.natAbs := by
  have h1 : ¬ (0 : Int) < -x := by omega
  unfold litTrue
  rw [if_neg h1, Int.natAbs_neg]

theorem val_pos (a : Assignment) (x : Int) (hx : 0 < x) :
    (val a x > 0) ↔ a x.natAbs = true := by
  unfold val
  rw [litTrue_pos a x hx]
  cases a x.natAbs <;> simp <;> omega

theorem emitted_append (s : State) (new : List Int) (n : Int) :
    emitted s { s with stream := new ++ s.stream, numberOfClauses := n } = clausesOf new.reverse := by
  simp [emitted]

theorem clausesAux_append (c : List Int) (hc : ∀ l ∈ c, l ≠ 0) (cur rest : List Int) :
    clausesAux cur (c ++ 0 :: rest) = (cur ++ c) :: clausesAux [] rest := by
  induction c generalizing cur with
  | nil => simp [clausesAux]
  | cons x r ih =>
    have hx : x ≠ 0 := hc x (List.mem_cons_self _ _)
    have hr : ∀ l ∈ r, l ≠ 0 := fun l hl => hc l (List.mem_cons_of_mem _ hl)
    simp [clausesAux, hx, ih hr]

theorem clausesOf_flat (cs : List (List Int)) (h : ∀ c ∈ cs, ∀ l ∈ c, l ≠ 0) :
    clausesOf (flat cs) = cs := by
  induction cs with
  | nil => rfl
  | cons c r ih =>
    have hc := h c (List.mem_cons_self _ _)
    have hr : ∀ d ∈ r, ∀ l ∈ d, l ≠ 0 := fun d hd => h d (List.mem_cons_of_mem _ hd)
    have := ih hr
    simp only [clausesOf, flat, List.flatMap_cons, List.append_assoc, List.singleton_append] at this ⊢
    rw [clausesAux_append c hc, this]
    simp

theorem ne_zero_of_pos (x : Int) (hx : 0 < x) : x ≠ 0 := by omega

/-- C1. Soundness of `encode_attribute_immediate_proximity`: when the registered
values `A` and `B` each have exactly one true position literal and the
assignment satisfies the clauses the call sends, the houses of `A` and `B`
differ by exactly one. -/
theorem immediate_proximity_sound (s : State) (A B : String) (a : Assignment)
    (hA : Registered s A) (hB : Registered s B)
    (eA : exactlyOne a (s.var2lit A)) (eB : exactlyOne a (s.var2lit B)) :
    ∃ t, encode_attribute_immediate_proximity A B s = some t ∧
      (satisfies a (emitted s t) = true →
        ∃ pA, pA < 5 ∧ ∃ pB, pB < 5 ∧ get_house s a A = some pA ∧ get_house s a B = some pB ∧
          (pA + 1 = pB ∨ pB + 1 = pA)) := by
  obtain ⟨x0, x1, x2, x3, x4, hk, p0, p1, p2, p3, p4⟩ := registered_lits hA
  obtain ⟨y0, y1, y2, y3, y4, hm, q0, q1, q2, q3, q4⟩ := registered_lits hB
  refine ⟨_, proximity_eq hk hm, ?_⟩
  rw [emitted_append]
  have hflat : [0, y3, -x4, 0, y4, -x3, y2, 0, -y4, x3, -y2, 0, y3, -x2, y1, 0, -y3, x2, -y1,
      0, y2, -x1, y0, 0, -y2, x1, -y0, 0, y1, -x0].reverse =
      flat [[-x0, y1], [-y0, x1, -y2], [y0, -x1, y2], [-y1, x2, -y3], [y1, -x2, y3],
        [-y2, x3, -y4], [y2, -x3, y4], [-x4, y3]] := by
    simp [flat]
  rw [hflat, clausesOf_flat _ (by simp [ne_zero_of_pos, p0, p1, p2, p3, p4, q0, q1, q2, q3, q4])]
  simp only [exactlyOne, hk, hm] at eA eB
  simp [get_house, get_house_loop, hk, hm, NUM_ATTRIBUTES, val_pos,
    satisfies, clauseTrue, litTrue_pos, litTrue_neg, List.countP_cons,
    p0, p1, p2, p3, p4, q0, q1, q2, q3, q4] at eA eB ⊢
  generalize a x0.natAbs = a0 at eA eB ⊢
  generalize a x1.natAbs = a1 at eA eB ⊢
  generalize a x2.natAbs = a2 at eA eB ⊢
  generalize a x3.natAbs = a3 at eA eB ⊢
  generalize a x4.natAbs = a4 at eA eB ⊢
  generalize a y0.natAbs = b0 at eA eB ⊢
  generalize a y1.natAbs = b1 at eA eB ⊢
  generalize a y2.natAbs = b2 at eA eB ⊢
  generalize a y3.natAbs = b3 at eA eB ⊢
  generalize a y4.natAbs = b4 at eA eB ⊢
  cases a0 <;> cases a1 <;> cases a2 <;> cases a3 <;> cases a4 <;> simp at eA <;>
    cases b0 <;> cases b1 <;> cases b2 <;> cases b3 <;> cases b4 <;> simp at eB <;> simp <;>
    decide

set_option maxRecDepth 100000 in
theorem registration_isSome : (assign_vars_to_lits init).isSome = true := by decide!

theorem registered_registeredState (v : String) (hv : v ∈ allValues) :
    Registered registeredState v := by
  refine ⟨hv, ?_⟩
  obtain ⟨reg, hreg⟩ := Option.isSome_iff_exists.mp registration_isSome
  exact ⟨reg, hreg, by simp [registeredState, hreg]⟩

set_option maxRecDepth 100000 in
/-- C1 at `Blend` and `Chats` in the solution of the puzzle. -/
theorem immediate_proximity_sound_witness :
    ∃ t, encode_attribute_immediate_proximity "Blend" "Chats" registeredState = some t ∧
      (satisfies solution (emitted registeredState t) = true →
        ∃ pA, pA < 5 ∧ ∃ pB, pB < 5 ∧ get_house registeredState solution "Blend" = some pA ∧
          get_house registeredState solution "Chats" = some pB ∧ (pA + 1 = pB ∨ pB + 1 = pA)) :=
  immediate_proximity_sound registeredState "Blend" "Chats" solution
    (registered_registeredState _ (by decide)) (registered_registeredState _ (by decide))
    (by unfold exactlyOne; decide!) (by unfold exactlyOne; decide!)

set_option maxRecDepth 100000 in
/-- C2. `encode_attribute_left("Verte", "Blanche")`, the call of `main`, accepts
an assignment with `Verte` in house 4 and `Blanche` in house 0, each value
having exactly one true position literal: the house of `Blanche` is not the
house of `Verte` plus one. -/
theorem left_accepts_wrap_around :
    (encode_attribute_left "Verte" "Blanche" registeredState).map
        (fun t => satisfies wrapAround (emitted registeredState t)) = some true ∧
      (registeredState.var2lit "Verte").countP (litTrue wrapAround) = 1 ∧
      (registeredState.var2lit "Blanche").countP (litTrue wrapAround) = 1 ∧
      get_house registeredState wrapAround "Verte" = some 4 ∧
      get_house registeredState wrapAround "Blanche" = some 0 := by
  decide!

set_option maxRecDepth 100000 in
/-- C3, as stated, fails: with `Blend` in house 0 and `Chats` in house 1 the two
clauses of `encode_attribute_between("Blend", "Chats", 2)` are satisfied and
each value has exactly one true position literal, yet `Chats` is at `2 - 1`
while `Blend` is not at 2. -/
theorem between_converse_fails :
    (encode_attribute_between "Blend" "Chats" 2 registeredState).map
        (fun t => satisfies blendFirst (emitted registeredState t)) = some true ∧
      (registeredState.var2lit "Blend").countP (litTrue blendFirst) = 1 ∧
      (registeredState.var2lit "Chats").countP (litTrue blendFirst) = 1 ∧
      ¬ ((isAt registeredState blendFirst "Blend" 2 = true →
            isAt registeredState blendFirst "Chats" (2 - 1) = true ∨
            isAt registeredState blendFirst "Chats" (2 + 1) = true) ∧
         (isAt registeredState blendFirst "Chats" (2 - 1) = true ∨
            isAt registeredState blendFirst "Chats" (2 + 1) = true →
          isAt registeredState blendFirst "Blend" 2 = true)) := by
  decide!

/-- C3, amended. For an interior house `pos`, registered values `A`, `B` and
an assignment in which `A` and `B` each have exactly one true position
literal, the two clauses sent by `encode_attribute_between(A, B, pos)` are
satisfied if and only if `A` at `pos` implies `B` at `pos - 1` or `pos + 1`. -/
theorem between_iff (s : State) (A B : String) (pos : Int) (a : Assignment)
    (hpos : 0 < pos ∧ pos < 4) (hA : Registered s A) (hB : Registered s B)
    (eA : exactlyOne a (s.var2lit A)) (eB : exactlyOne a (s.var2lit B)) :
    ∃ t, encode_attribute_between A B pos s = some t ∧
      (satisfies a (emitted s t) = true ↔
        (isAt s a A pos = true → isAt s a B (pos - 1) = true ∨ isAt s a B (pos + 1) = true)) := by
  obtain ⟨x0, x1, x2, x3, x4, hk, p0, p1, p2, p3, p4⟩ := registered_lits hA
  obtain ⟨y0, y1, y2, y3, y4, hm, q0, q1, q2, q3, q4⟩ := registered_lits hB
  have hflat : ∀ u v w : Int, [0, w, -v, u, 0, -w, v, -u].reverse = flat [[-u, v, -w], [u, -v, w]] := by
    intro u v w; simp [flat]
  simp only [exactlyOne, hk, hm] at eA eB
  simp [List.countP_cons, litTrue_pos, p0, p1, p2, p3, p4, q0, q1, q2, q3, q4] at eA eB
  obtain rfl | rfl | rfl : pos = 1 ∨ pos = 2 ∨ pos = 3 := by omega
  · refine ⟨{ s with stream := [0, y2, -x1, y0, 0, -y2, x1, -y0] ++ s.stream,
                     numberOfClauses := s.numberOfClauses + 1 + 1 }, ?_, ?_⟩
    · simp [encode_attribute_between, litAt, lit, hk, hm, add_eq, bind, Option.bind]
    · rw [emitted_append, hflat, clausesOf_flat _ (by simp [ne_zero_of_pos, p1, q0, q2])]
      simp [isAt, litAt, lit, hk, hm, satisfies, clauseTrue, litTrue_pos, litTrue_neg,
        p0, p1, p2, p3, p4, q0, q1, q2, q3, q4]
      generalize a x1.natAbs = a1 at eA ⊢
      generalize a y0.natAbs = b0 at eB ⊢
      generalize a y2.natAbs = b2 at eB ⊢
      cases a1 <;> cases b0 <;> cases b2 <;> simp at eB ⊢
  · refine ⟨{ s with stream := [0, y3, -x2, y1, 0, -y3, x2, -y1] ++ s.stream,
                     numberOfClauses := s.numberOfClauses + 1 + 1 }, ?_, ?_⟩
    · simp [encode_attribute_between, litAt, lit, hk, hm, add_eq, bind, Option.bind]
    · rw [emitted_append, hflat, clausesOf_flat _ (by simp [ne_zero_of_pos, p2, q1, q3])]
      simp [isAt, litAt, lit, hk, hm, satisfies, clauseTrue, litTrue_pos, litTrue_neg,
        p0, p1, p2, p3, p4, q0, q1, q2, q3, q4]
      generalize a x2.natAbs = a1 at eA ⊢
      generalize a y1.natAbs = b0 at eB ⊢
      generalize a y3.natAbs = b2 at eB ⊢
      cases a1 <;> cases b0 <;> cases b2 <;> simp at eB ⊢
      split_ifs at eB <;> omega
  · refine ⟨{ s with stream := [0, y4, -x3, y2, 0, -y4, x3, -y2] ++ s.stream,
                     numberOfClauses := s.numberOfClauses + 1 + 1 }, ?_, ?_⟩
    · simp [encode_attribute_between, litAt, lit, hk, hm, add_eq, bind, Option.bind]
    · rw [emitted_append, hflat, clausesOf_flat _ (by simp [ne_zero_of_pos, p3, q2, q4])]
      simp [isAt, litAt, lit, hk, hm, satisfies, clauseTrue, litTrue_pos, litTrue_neg,
        p0, p1, p2, p3, p4, q0, q1, q2, q3, q4]
      generalize a x3.natAbs = a1 at eA ⊢
      generalize a y2.natAbs = b0 at eB ⊢
      generalize a y4.natAbs = b2 at eB ⊢
      cases a1 <;> cases b0 <;> cases b2 <;> simp at eB ⊢
      split_ifs at eB <;> omega

set_option maxRecDepth 100000 in
/-- The amended C3 at `Blend`, `Chats`, house 2 and the solution of the puzzle. -/
theorem between_iff_witness :
    ∃ t, encode_attribute_between "Blend" "Chats" 2 registeredState = some t ∧
      (satisfies solution (emitted registeredState t) = true ↔
        (isAt registeredState solution "Blend" 2 = true →
          isAt registeredState solution "Chats" (2 - 1) = true ∨
          isAt registeredState solution "Chats" (2 + 1) = true)) :=
  between_iff registeredState "Blend" "Chats" 2 solution (by decide)
    (registered_registeredState _ (by decide)) (registered_registeredState _ (by decide))
    (by unfold exactlyOne; decide!) (by unfold exactlyOne; decide!)

/-! ## The clauses of `encode_am1` -/

theorem foldl_add_stream (cs : List (List Int)) (s : State) :
    cs.foldl (fun st c => add c st) s =
      { s with stream := (flat cs).reverse ++ s.stream,
               numberOfClauses := s.numberOfClauses + cs.length } := by
  induction cs generalizing s with
  | nil => simp [flat]
  | cons c r ih =>
    rw [List.foldl_cons, ih, add_eq]
    simp [flat, Int.add_assoc, Int.add_comm 1]

theorem foldl_add_lit_stream (c : List Int) (hc : ∀ l ∈ c, l ≠ 0) (s : State) :
    c.foldl (fun st l => add_lit l st) s = { s with stream := c.reverse ++ s.stream } := by
  induction c generalizing s with
  | nil => rfl
  | cons x r ih =>
    have hx : x ≠ 0 := hc x (List.mem_cons_self _ _)
    have hr : ∀ l ∈ r, l ≠ 0 := fun l hl => hc l (List.mem_cons_of_mem _ hl)
    rw [List.foldl_cons, ih hr, add_lit_ne x hx]
    simp

theorem foldl_nested {α : Type} (L : List α) (g : α → List (List Int)) (s : State) :
    L.foldl (fun st i => (g i).foldl (fun st2 c => add c st2) st) s =
      (L.flatMap g).foldl (fun st c => add c st) s := by
  induction L generalizing s with
  | nil => rfl
  | cons i r ih => simp [List.flatMap_cons, List.foldl_append, ih]

theorem map_getD_range (f : Int → List Int) (r : List Int) :
    (List.range r.length).map (fun j => f (r.getD j 0)) = r.map f := by
  apply List.ext_getElem
  · simp
  · intro n h1 h2
    simp at h1
    simp [List.getD_eq_getElem?_getD, List.getElem?_eq_getElem h1]

theorem pairs_index (c : List Int) :
    (List.range c.length).flatMap (fun i =>
      (List.range' (i + 1) (c.length - (i + 1))).map (fun j =>
        [-(c.getD i 0), -(c.getD j 0)])) = pairClauses c := by
  induction c with
  | nil => rfl
  | cons x r ih =>
    rw [List.length_cons, List.range_succ_eq_map, List.flatMap_cons, pairClauses, ← ih]
    congr 1
    · simp only [Nat.zero_add, Nat.add_sub_cancel, List.getD_cons_zero]
      rw [List.range'_eq_map_range, List.map_map, ← map_getD_range]
      apply List.map_congr_left
      intro j _
      simp [Nat.add_comm 1 j]
    · rw [List.flatMap_map]
      apply List.flatMap_congr
      intro i _
      simp only [Function.comp, Nat.succ_eq_add_one, List.getD_cons_succ]
      rw [show r.length + 1 - (i + 1 + 1) = r.length - (i + 1) by omega]
      rw [List.range'_eq_map_range, List.range'_eq_map_range, List.map_map, List.map_map]
      apply List.map_congr_left
      intro j _
      have hj : i + 1 + 1 + j = (i + 1 + j) + 1 := by omega
      simp only [Function.comp, hj, List.getD_cons_succ]

theorem encode_am1_eq (c : List Int) (hc : ∀ l ∈ c, l ≠ 0) (s : State) :
    encode_am1 c s =
      { s with stream := (flat (am1Clauses c)).reverse ++ s.stream,
               numberOfClauses := s.numberOfClauses + (am1Clauses c).length } := by
  unfold encode_am1
  have h1 : ∀ (st : State) (i : Nat),
      (List.range' (i + 1) (c.length - (i + 1))).foldl (fun st2 j =>
        add [-(c.getD i 0), -(c.getD j 0)] st2) st =
      ((List.range' (i + 1) (c.length - (i + 1))).map (fun j =>
        [-(c.getD i 0), -(c.getD j 0)])).foldl (fun st2 cl => add cl st2) st := by
    intro st i
    rw [List.foldl_map]
  simp only [h1]
  rw [foldl_nested (List.range c.length) (fun i =>
      (List.range' (i + 1) (c.length - (i + 1))).map (fun j => [-(c.getD i 0), -(c.getD j 0)])),
    pairs_index, foldl_add_stream, foldl_add_lit_stream c hc, add_lit_zero]
  simp [am1Clauses, flat, Int.add_assoc]

theorem litTrue_neg_ne (a : Assignment) (l : Int) (hl : l ≠ 0) :
    litTrue a (-l) = !litTrue a l := by
  unfold litTrue
  by_cases h : 0 < l
  · have h2 : ¬ (0 : Int) < -l := by omega
    simp [h, h2]
  · have h2 : (0 : Int) < -l := by omega
    simp [h, h2]

theorem satisfies_append (a : Assignment) (c1 c2 : List (List Int)) :
    satisfies a (c1 ++ c2) = (satisfies a c1 && satisfies a c2) := by
  simp [satisfies]

theorem satisfies_pairClauses (a : Assignment) (c : List Int) (hc : ∀ l ∈ c, l ≠ 0) :
    satisfies a (pairClauses c) = true ↔ c.countP (litTrue a) ≤ 1 := by
  induction c with
  | nil => simp [pairClauses, satisfies]
  | cons x r ih =>
    have hx : x ≠ 0 := hc x (List.mem_cons_self _ _)
    have hr : ∀ l ∈ r, l ≠ 0 := fun l hl => hc l (List.mem_cons_of_mem _ hl)
    rw [pairClauses, satisfies_append, Bool.and_eq_true, ih hr, List.countP_cons]
    have hfirst : satisfies a (r.map (fun y => [-x, -y])) = true ↔
        (litTrue a x = true → ∀ y ∈ r, litTrue a y = false) := by
      unfold satisfies
      rw [List.all_eq_true]
      constructor
      · intro h hxt y hy
        have := h [-x, -y] (List.mem_map_of_mem _ hy)
        simpa [clauseTrue, litTrue_neg_ne a x hx, litTrue_neg_ne a y (hr y hy), hxt] using this
      · intro h d hd
        obtain ⟨y, hy, rfl⟩ := List.mem_map.mp hd
        cases hxt : litTrue a x
        · simp [clauseTrue, litTrue_neg_ne a x hx, hxt]
        · simp [clauseTrue, litTrue_neg_ne a x hx, litTrue_neg_ne a y (hr y hy), h hxt y hy]
    rw [hfirst]
    cases hxt : litTrue a x
    · simp
    · simp only [forall_const, if_true]
      constructor
      · rintro ⟨h1, _⟩
        have : r.countP (litTrue a) = 0 := by
          rw [List.countP_eq_zero]
          intro y hy
          simp [h1 y hy]
        omega
      · intro h
        have h0 : r.countP (litTrue a) = 0 := by omega
        refine ⟨?_, by omega⟩
        intro y hy
        rw [List.countP_eq_zero] at h0
        simpa using h0 y hy

theorem satisfies_am1Clauses (a : Assignment) (c : List Int) (hc : ∀ l ∈ c, l ≠ 0) :
    satisfies a (am1Clauses c) = true ↔ exactlyOne a c := by
  rw [am1Clauses, satisfies_append, Bool.and_eq_true, satisfies_pairClauses a c hc, exactlyOne]
  have h1 : satisfies a [c] = true ↔ 0 < c.countP (litTrue a) := by
    simp [satisfies, clauseTrue, List.countP_pos_iff]
  rw [h1]
  omega

theorem am1Clauses_ne_zero (c : List Int) (hc : ∀ l ∈ c, l ≠ 0) :
    ∀ d ∈ am1Clauses c, ∀ l ∈ d, l ≠ 0 := by
  have hp : ∀ c : List Int, (∀ l ∈ c, l ≠ 0) → ∀ d ∈ pairClauses c, ∀ l ∈ d, l ≠ 0 := by
    intro c
    induction c with
    | nil => simp [pairClauses]
    | cons x r ih =>
      intro hc d hd l hl
      have hx : x ≠ 0 := hc x (List.mem_cons_self _ _)
      have hr : ∀ l ∈ r, l ≠ 0 := fun l hl => hc l (List.mem_cons_of_mem _ hl)
      rw [pairClauses, List.mem_append, List.mem_map] at hd
      rcases hd with ⟨y, hy, rfl⟩ | hd
      · have := hr y hy
        simp at hl
        rcases hl with rfl | rfl <;> omega
      · exact ih hr d hd l hl
  intro d hd l hl
  rw [am1Clauses, List.mem_append] at hd
  rcases hd with hd | hd
  · exact hp c hc d hd l hl
  · simp at hd
    subst hd
    exact hc l hl

theorem emitted_encode_am1 (c : List Int) (hc : ∀ l ∈ c, l ≠ 0) (s : State) :
    emitted s (encode_am1 c s) = am1Clauses c := by
  rw [encode_am1_eq c hc, emitted_append, List.reverse_reverse,
    clausesOf_flat _ (am1Clauses_ne_zero c hc)]

theorem countP_le_one_no_two (a : Assignment) (c : List Int)
    (h : c.countP (litTrue a) ≤ 1) (i j : Nat) (hij : i < j) (hj : j < c.length) :
    ¬ (litTrue a (c.getD i 0) = true ∧ litTrue a (c.getD j 0) = true) := by
  induction c generalizing i j with
  | nil => simp at hj
  | cons x r ih =>
    rw [List.countP_cons] at h
    obtain ⟨j', rfl⟩ : ∃ j', j = j' + 1 := ⟨j - 1, by omega⟩
    have hj' : j' < r.length := by simpa using hj
    cases i with
    | zero =>
      rintro ⟨hx, hy⟩
      simp only [List.getD_cons_zero] at hx
      rw [List.getD_cons_succ, List.getD_eq_getElem?_getD, List.getElem?_eq_getElem hj'] at hy
      have : 0 < r.countP (litTrue a) :=
        List.countP_pos_iff.mpr ⟨r[j'], List.getElem_mem hj', hy⟩
      rw [if_pos hx] at h
      omega
    | succ i' =>
      simp only [List.getD_cons_succ]
      exact ih (by omega) i' j' (by omega) hj'

/-- C4. For every list `vars` of non-zero literals (in particular of pairwise
distinct variables) and every assignment, the clauses sent by `encode_am1(vars)`
are satisfied if and only if exactly one entry of `vars` is true; a satisfying
assignment never makes two entries true. -/
theorem encode_am1_semantics (vars : List Int) (hv : ∀ v ∈ vars, v ≠ 0) (a : Assignment)
    (s : State) :
    (satisfies a (emitted s (encode_am1 vars s)) = true ↔ exactlyOne a vars) ∧
    (satisfies a (emitted s (encode_am1 vars s)) = true →
      ∀ i j, i < j → j < vars.length →
        ¬ (litTrue a (vars.getD i 0) = true ∧ litTrue a (vars.getD j 0) = true)) := by
  rw [emitted_encode_am1 vars hv, satisfies_am1Clauses a vars hv]
  refine ⟨Iff.rfl, ?_⟩
  intro h i j hij hj
  exact countP_le_one_no_two a vars (by unfold exactlyOne at h; omega) i j hij hj

/-- C4 at the five variables of `Britannique` and the solution of the puzzle. -/
theorem encode_am1_semantics_witness :
    (satisfies solution (emitted init (encode_am1 [1, 2, 3, 4, 5] init)) = true ↔
        exactlyOne solution [1, 2, 3, 4, 5]) ∧
    (satisfies solution (emitted init (encode_am1 [1, 2, 3, 4, 5] init)) = true →
      ∀ i j, i < j → j < ([1, 2, 3, 4, 5] : List Int).length →
        ¬ (litTrue solution (([1, 2, 3, 4, 5] : List Int).getD i 0) = true ∧
           litTrue solution (([1, 2, 3, 4, 5] : List Int).getD j 0) = true)) :=
  encode_am1_semantics [1, 2, 3, 4, 5] (by decide) solution init

/-! ## Forced position -/

theorem one_of_five : ∀ b0 b1 b2 b3 b4 : Bool,
    ((((if b4 = true then (1 : Nat) else 0) + if b3 = true then 1 else 0) +
        if b2 = true then 1 else 0) + if b1 = true then 1 else 0) +
        (if b0 = true then 1 else 0) = 1 →
    (b0 = true → b1 = false ∧ b2 = false ∧ b3 = false ∧ b4 = false) ∧
    (b1 = true → b0 = false ∧ b2 = false ∧ b3 = false ∧ b4 = false) ∧
    (b2 = true → b0 = false ∧ b1 = false ∧ b3 = false ∧ b4 = false) ∧
    (b3 = true → b0 = false ∧ b1 = false ∧ b2 = false ∧ b4 = false) ∧
    (b4 = true → b0 = false ∧ b1 = false ∧ b2 = false ∧ b3 = false) := by
  intro b0 b1 b2 b3 b4
  cases b0 <;> cases b1 <;> cases b2 <;> cases b3 <;> cases b4 <;> simp

/-- C10. For a registered value `V` and a house `p` in `[0, 5)`,
`encode_attribute_forced_position(V, p)` sends exactly the unit clause of `V`'s
literal at `p`; an assignment that satisfies it and the clauses of `encode_am1`
over `V`'s five literals has `V`'s literal true at `p` and false at every other
house. -/
theorem forced_position (s : State) (V : String) (p : Int) (hV : Registered s V)
    (hp : 0 ≤ p ∧ p < 5) :
    ∃ l t, litAt s V p = some l ∧ encode_attribute_forced_position V p s = some t ∧
      emitted s t = [[l]] ∧
      ∀ a : Assignment, satisfies a (emitted s t) = true →
        satisfies a (emitted s (encode_am1 (s.var2lit V) s)) = true →
        isAt s a V p = true ∧ ∀ q : Int, 0 ≤ q → q < 5 → q ≠ p → isAt s a V q = false := by
  obtain ⟨x0, x1, x2, x3, x4, hk, p0, p1, p2, p3, p4⟩ := registered_lits hV
  have hne : ∀ l ∈ s.var2lit V, l ≠ 0 := by
    rw [hk]; simp [ne_zero_of_pos, p0, p1, p2, p3, p4]
  have key : ∀ (l : Int), 0 < l → litAt s V p = some l →
      ∃ t, encode_attribute_forced_position V p s = some t ∧ emitted s t = [[l]] := by
    intro l hl h
    refine ⟨{ s with stream := [0, l] ++ s.stream, numberOfClauses := s.numberOfClauses + 1 }, ?_, ?_⟩
    · simp [encode_attribute_forced_position, h, add_lit_zero, add_lit_ne l (ne_zero_of_pos l hl),
        bind, Option.bind]
    · rw [emitted_append]
      have : [0, l].reverse = flat [[l]] := by simp [flat]
      rw [this, clausesOf_flat _ (by simp [ne_zero_of_pos l hl])]
  have sem : ∀ a : Assignment, satisfies a (emitted s (encode_am1 (s.var2lit V) s)) = true →
      ((((if a x4.natAbs = true then 1 else 0) + if a x3.natAbs = true then 1 else 0) +
        if a x2.natAbs = true then 1 else 0) + if a x1.natAbs = true then 1 else 0) +
        (if a x0.natAbs = true then 1 else 0) = 1 := by
    intro a h
    rw [emitted_encode_am1 _ hne, satisfies_am1Clauses a _ hne, exactlyOne, hk] at h
    simpa [List.countP_cons, litTrue_pos, p0, p1, p2, p3, p4] using h
  obtain rfl | rfl | rfl | rfl | rfl : p = 0 ∨ p = 1 ∨ p = 2 ∨ p = 3 ∨ p = 4 := by omega
  · obtain ⟨t, ht, he⟩ := key x0 p0 (by simp [litAt, lit, hk])
    refine ⟨x0, t, by simp [litAt, lit, hk], ht, he, ?_⟩
    intro a h1 h2
    obtain ⟨h0', h1', h2', h3', h4'⟩ := one_of_five _ _ _ _ _ (sem a h2)
    rw [he] at h1
    simp [satisfies, clauseTrue, litTrue_pos, p0] at h1
    obtain ⟨e1, e2, e3, e4⟩ := h0' h1
    refine ⟨by simp [isAt, litAt, lit, hk, litTrue_pos, p0, h1], ?_⟩
    intro q hq0 hq5 hqp
    obtain rfl | rfl | rfl | rfl | rfl : q = 0 ∨ q = 1 ∨ q = 2 ∨ q = 3 ∨ q = 4 := by omega
    all_goals first
      | exact absurd rfl hqp
      | simp [isAt, litAt, lit, hk, litTrue_pos, p0, p1, p2, p3, p4, e1, e2, e3, e4]
  · obtain ⟨t, ht, he⟩ := key x1 p1 (by simp [litAt, lit, hk])
    refine ⟨x1, t, by simp [litAt, lit, hk], ht, he, ?_⟩
    intro a h1 h2
    obtain ⟨h0', h1', h2', h3', h4'⟩ := one_of_five _ _ _ _ _ (sem a h2)
    rw [he] at h1
    simp [satisfies, clauseTrue, litTrue_pos, p1] at h1
    obtain ⟨e1, e2, e3, e4⟩ := h1' h1
    refine ⟨by simp [isAt, litAt, lit, hk, litTrue_pos, p1, h1], ?_⟩
    intro q hq0 hq5 hqp
    obtain rfl | rfl | rfl | rfl | rfl : q = 0 ∨ q = 1 ∨ q = 2 ∨ q = 3 ∨ q = 4 := by omega
    all_goals first
      | exact absurd rfl hqp
      | simp [isAt, litAt, lit, hk, litTrue_pos, p0, p1, p2, p3, p4, e1, e2, e3, e4]
  · obtain ⟨t, ht, he⟩ := key x2 p2 (by simp [litAt, lit, hk])
    refine ⟨x2, t, by simp [litAt, lit, hk], ht, he, ?_⟩
    intro a h1 h2
    obtain ⟨h0', h1', h2', h3', h4'⟩ := one_of_five _ _ _ _ _ (sem a h2)
    rw [he] at h1
    simp [satisfies, clauseTrue, litTrue_pos, p2] at h1
    obtain ⟨e1, e2, e3, e4⟩ := h2' h1
    refine ⟨by simp [isAt, litAt, lit, hk, litTrue_pos, p2, h1], ?_⟩
    intro q hq0 hq5 hqp
    obtain rfl | rfl | rfl | rfl | rfl : q = 0 ∨ q = 1 ∨ q = 2 ∨ q = 3 ∨ q = 4 := by omega
    all_goals first
      | exact absurd rfl hqp
      | simp [isAt, litAt, lit, hk, litTrue_pos, p0, p1, p2, p3, p4, e1, e2, e3, e4]
  · obtain ⟨t, ht, he⟩ := key x3 p3 (by simp [litAt, lit, hk])
    refine ⟨x3, t, by simp [litAt, lit, hk], ht, he, ?_⟩
    intro a h1 h2
    obtain ⟨h0', h1', h2', h3', h4'⟩ := one_of_five _ _ _ _ _ (sem a h2)
    rw [he] at h1
    simp [satisfies, clauseTrue, litTrue_pos, p3] at h1
    obtain ⟨e1, e2, e3, e4⟩ := h3' h1
    refine ⟨by simp [isAt, litAt, lit, hk, litTrue_pos, p3, h1], ?_⟩
    intro q hq0 hq5 hqp
    obtain rfl | rfl | rfl | rfl | rfl : q = 0 ∨ q = 1 ∨ q = 2 ∨ q = 3 ∨ q = 4 := by omega
    all_goals first
      | exact absurd rfl hqp
      | simp [isAt, litAt, lit, hk, litTrue_pos, p0, p1, p2, p3, p4, e1, e2, e3, e4]
  · obtain ⟨t, ht, he⟩ := key x4 p4 (by simp [litAt, lit, hk])
    refine ⟨x4, t, by simp [litAt, lit, hk], ht, he, ?_⟩
    intro a h1 h2
    obtain ⟨h0', h1', h2', h3', h4'⟩ := one_of_five _ _ _ _ _ (sem a h2)
    rw [he] at h1
    simp [satisfies, clauseTrue, litTrue_pos, p4] at h1
    obtain ⟨e1, e2, e3, e4⟩ := h4' h1
    refine ⟨by simp [isAt, litAt, lit, hk, litTrue_pos, p4, h1], ?_⟩
    intro q hq0 hq5 hqp
    obtain rfl | rfl | rfl | rfl | rfl : q = 0 ∨ q = 1 ∨ q = 2 ∨ q = 3 ∨ q = 4 := by omega
    all_goals first
      | exact absurd rfl hqp
      | simp [isAt, litAt, lit, hk, litTrue_pos, p0, p1, p2, p3, p4, e1, e2, e3, e4]

/-- C10 at `Lait` and house 2, the call of `main`. -/
theorem forced_position_witness :
    ∃ l t, litAt registeredState "Lait" 2 = some l ∧
      encode_attribute_forced_position "Lait" 2 registeredState = some t ∧
      emitted registeredState t = [[l]] ∧
      ∀ a : Assignment, satisfies a (emitted registeredState t) = true →
        satisfies a (emitted registeredState
          (encode_am1 (registeredState.var2lit "Lait") registeredState)) = true →
        isAt registeredState a "Lait" 2 = true ∧
          ∀ q : Int, 0 ≤ q → q < 5 → q ≠ 2 → isAt registeredState a "Lait" q = false :=
  forced_position registeredState "Lait" 2 (registered_registeredState _ (by decide)) (by decide)

/-! ## Exclusivity: one house per value, one value per house -/

theorem row_position (s : State) (a : Assignment) (v : String) (hV : Registered s v)
    (h : exactlyOne a (s.var2lit v)) :
    ∃ p, p < 5 ∧ get_house s a v = some p ∧
      ∀ j : Nat, j < 5 → ∀ l, lit s v j = some l → litTrue a l = decide (j = p) := by
  obtain ⟨x0, x1, x2, x3, x4, hk, p0, p1, p2, p3, p4⟩ := registered_lits hV
  simp only [exactlyOne, hk] at h
  simp [List.countP_cons, litTrue_pos, p0, p1, p2, p3, p4] at h
  have hg : get_house s a v =
      (if a x0.natAbs = true then some 0 else if a x1.natAbs = true then some 1
        else if a x2.natAbs = true then some 2 else if a x3.natAbs = true then some 3
        else if a x4.natAbs = true then some 4 else none) := by
    simp [get_house, get_house_loop, hk, NUM_ATTRIBUTES, val_pos, p0, p1, p2, p3, p4]
  have hl : ∀ j : Nat, j < 5 → ∀ l, lit s v j = some l →
      litTrue a l = (if j = 0 then a x0.natAbs else if j = 1 then a x1.natAbs
        else if j = 2 then a x2.natAbs else if j = 3 then a x3.natAbs else a x4.natAbs) := by
    intro j hj l hjl
    obtain rfl | rfl | rfl | rfl | rfl : j = 0 ∨ j = 1 ∨ j = 2 ∨ j = 3 ∨ j = 4 := by omega
    all_goals
      simp [lit, hk] at hjl
      subst hjl
      simp [litTrue_pos, p0, p1, p2, p3, p4]
  rw [hg]
  generalize a x0.natAbs = b0 at h hl
  generalize a x1.natAbs = b1 at h hl
  generalize a x2.natAbs = b2 at h hl
  generalize a x3.natAbs = b3 at h hl
  generalize a x4.natAbs = b4 at h hl
  cases b0 <;> cases b1 <;> cases b2 <;> cases b3 <;> cases b4 <;> simp at h
  · refine ⟨4, by decide, rfl, ?_⟩
    intro j hj l hjl
    rw [hl j hj l hjl]
    obtain rfl | rfl | rfl | rfl | rfl : j = 0 ∨ j = 1 ∨ j = 2 ∨ j = 3 ∨ j = 4 := by omega
    all_goals simp
  · refine ⟨3, by decide, rfl, ?_⟩
    intro j hj l hjl
    rw [hl j hj l hjl]
    obtain rfl | rfl | rfl | rfl | rfl : j = 0 ∨ j = 1 ∨ j = 2 ∨ j = 3 ∨ j = 4 := by omega
    all_goals simp
  · refine ⟨2, by decide, rfl, ?_⟩
    intro j hj l hjl
    rw [hl j hj l hjl]
    obtain rfl | rfl | rfl | rfl | rfl : j = 0 ∨ j = 1 ∨ j = 2 ∨ j = 3 ∨ j = 4 := by omega
    all_goals simp
  · refine ⟨1, by decide, rfl, ?_⟩
    intro j hj l hjl
    rw [hl j hj l hjl]
    obtain rfl | rfl | rfl | rfl | rfl : j = 0 ∨ j = 1 ∨ j = 2 ∨ j = 3 ∨ j = 4 := by omega
    all_goals simp
  · refine ⟨0, by decide, rfl, ?_⟩
    intro j hj l hjl
    rw [hl j hj l hjl]
    obtain rfl | rfl | rfl | rfl | rfl : j = 0 ∨ j = 1 ∨ j = 2 ∨ j = 3 ∨ j = 4 := by omega
    all_goals simp

theorem registered_of_table (s : State) (h : allValues.map s.var2lit = registryTable) :
    ∀ v ∈ allValues, Registered s v := by
  intro v hv
  refine ⟨hv, ?_⟩
  obtain ⟨reg, hreg⟩ := Option.isSome_iff_exists.mp registration_isSome
  refine ⟨reg, hreg, ?_⟩
  have ht := registration_table
  rw [hreg] at ht
  simp only [Option.map_some', Option.some.injEq] at ht
  have : allValues.map s.var2lit = allValues.map reg.var2lit := by rw [h, ht]; rfl
  exact List.map_inj_left.mp this v hv

theorem satisfies_flatMap_am1 (a : Assignment) (gs : List (List Int))
    (h : ∀ g ∈ gs, ∀ l ∈ g, l ≠ 0) :
    satisfies a (gs.flatMap am1Clauses) = true ↔ ∀ g ∈ gs, exactlyOne a g := by
  induction gs with
  | nil => simp [satisfies]
  | cons g r ih =>
    have hg := h g (List.mem_cons_self _ _)
    have hr : ∀ g' ∈ r, ∀ l ∈ g', l ≠ 0 := fun g' hg' => h g' (List.mem_cons_of_mem _ hg')
    rw [List.flatMap_cons, satisfies_append, Bool.and_eq_true, ih hr, satisfies_am1Clauses a g hg]
    simp

set_option maxRecDepth 100000 in
theorem exclusivity_clauses :
    (assign_vars_to_lits init >>= encode_at_most_one_per_house).map (fun s =>
      decide (clauses s = (groups s).flatMap am1Clauses ∧
        allValues.map s.var2lit = registryTable ∧
        ∀ g ∈ groups s, ∀ l ∈ g, l ≠ 0)) = some true := by
  decide!

theorem row_position_lit (s : State) (a : Assignment) (v : String) (hV : Registered s v)
    (h : exactlyOne a (s.var2lit v)) :
    ∃ p l, p < 5 ∧ get_house s a v = some p ∧ lit s v p = some l ∧ litTrue a l = true := by
  obtain ⟨p, hp, hg, hl⟩ := row_position s a v hV h
  obtain ⟨x0, x1, x2, x3, x4, hk, -⟩ := registered_lits hV
  have : ∃ l, lit s v p = some l := by
    obtain rfl | rfl | rfl | rfl | rfl : p = 0 ∨ p = 1 ∨ p = 2 ∨ p = 3 ∨ p = 4 := by omega
    all_goals simp [lit, hk]
  obtain ⟨l, hlit⟩ := this
  exact ⟨p, l, hp, hg, hlit, by rw [hl p hp l hlit]; simp⟩

theorem houses_nodup (s : State) (a : Assignment) (vs : List String)
    (hreg : ∀ v ∈ vs, Registered s v) (rows : ∀ v ∈ vs, exactlyOne a (s.var2lit v))
    (cols : ∀ i, i < 5 → (column s vs i).countP (litTrue a) ≤ 1) :
    ∃ ps : List Nat, vs.map (get_house s a) = ps.map some ∧ ps.Nodup ∧ ∀ p ∈ ps, p < 5 := by
  induction vs with
  | nil => exact ⟨[], rfl, List.nodup_nil, by simp⟩
  | cons v r ih =>
    have hcols : ∀ i, i < 5 → (column s r i).countP (litTrue a) ≤ 1 := by
      intro i hi
      have h1 := cols i hi
      have h2 : (column s r i).countP (litTrue a) ≤ (column s (v :: r) i).countP (litTrue a) := by
        apply List.Sublist.countP_le
        unfold column
        exact List.Sublist.filterMap _ (List.sublist_cons_self v r)
      omega
    obtain ⟨ps, hps, hnd, hlt⟩ := ih (fun w hw => hreg w (List.mem_cons_of_mem _ hw))
      (fun w hw => rows w (List.mem_cons_of_mem _ hw)) hcols
    obtain ⟨p, l, hp, hg, hlit, htrue⟩ :=
      row_position_lit s a v (hreg v (List.mem_cons_self _ _)) (rows v (List.mem_cons_self _ _))
    refine ⟨p :: ps, by simp [hg, hps], ?_, ?_⟩
    · rw [List.nodup_cons]
      refine ⟨?_, hnd⟩
      intro hmem
      have hsome : some p ∈ r.map (get_house s a) := by
        rw [hps]; exact List.mem_map_of_mem _ hmem
      obtain ⟨w, hw, hgw⟩ := List.mem_map.mp hsome
      obtain ⟨q, l', hq, hgq, hlitq, htrueq⟩ :=
        row_position_lit s a w (hreg w (List.mem_cons_of_mem _ hw))
          (rows w (List.mem_cons_of_mem _ hw))
      have hqp : q = p := by rw [hgq] at hgw; exact Option.some.inj hgw
      subst hqp
      have h1 := cols q hp
      have h2 : 0 < (column s r q).countP (litTrue a) := by
        apply List.countP_pos_iff.mpr
        refine ⟨l', ?_, htrueq⟩
        unfold column
        exact List.mem_filterMap.mpr ⟨w, hw, hlitq⟩
      have h3 : (column s (v :: r) q).countP (litTrue a) =
          (column s r q).countP (litTrue a) + 1 := by
        unfold column
        rw [List.filterMap_cons, hlit]
        simp [List.countP_cons, htrue]
      omega
    · intro x hx
      rcases List.mem_cons.mp hx with rfl | hx
      · exact hp
      · exact hlt x hx

theorem perm_range_five (ps : List Nat) (hlen : ps.length = 5) (hnd : ps.Nodup)
    (hlt : ∀ p ∈ ps, p < 5) : ps.Perm (List.range 5) := by
  apply (List.subperm_of_subset hnd ?_).perm_of_length_le
  · simp [hlen]
  · intro x hx
    exact List.mem_range.mpr (hlt x hx)

/-- C5. Every assignment that satisfies the clauses sent by
`assign_vars_to_lits()` and `encode_at_most_one_per_house()` has, in each of the
five categories, exactly one true position literal per value and exactly one
true value literal per house, and the houses of the five values (`get_house`)
are a permutation of `0..4`. -/
theorem permutation_invariant :
    ∃ s1 s2, assign_vars_to_lits init = some s1 ∧ encode_at_most_one_per_house s1 = some s2 ∧
      ∀ a : Assignment, satisfies a (clauses s2) = true →
        ∀ array ∈ arrayPtrs,
          (∀ v ∈ array, exactlyOne a (s2.var2lit v)) ∧
          (∀ i, i < 5 → exactlyOne a (column s2 array i)) ∧
          ∃ ps : List Nat, array.map (get_house s2 a) = ps.map some ∧
            ps.Perm (List.range 5) := by
  have h := exclusivity_clauses
  obtain ⟨s2, hs2, hd⟩ := Option.map_eq_some'.mp h
  obtain ⟨s1, hs1, h12⟩ := Option.bind_eq_some.mp hs2
  simp only [decide_eq_true_eq] at hd
  obtain ⟨hcl, htab, hne⟩ := hd
  refine ⟨s1, s2, hs1, h12, ?_⟩
  intro a hsat array harr
  rw [hcl, satisfies_flatMap_am1 a _ hne] at hsat
  have hreg := registered_of_table s2 htab
  have hsub : ∀ v ∈ array, v ∈ allValues := fun v hv =>
    List.mem_flatten.mpr ⟨array, harr, hv⟩
  have rows : ∀ v ∈ array, exactlyOne a (s2.var2lit v) := fun v hv =>
    hsat _ (List.mem_append_left _ (List.mem_map_of_mem _ (hsub v hv)))
  have cols : ∀ i, i < 5 → exactlyOne a (column s2 array i) := fun i hi =>
    hsat _ (List.mem_append_right _ (List.mem_flatMap.mpr
      ⟨array, harr, List.mem_map_of_mem _ (List.mem_range.mpr hi)⟩))
  obtain ⟨ps, hps, hnd, hlt⟩ := houses_nodup s2 a array (fun v hv => hreg v (hsub v hv)) rows
    (fun i hi => by have := cols i hi; unfold exactlyOne at this; omega)
  have hlen5 : ∀ arr ∈ arrayPtrs, arr.length = 5 := by decide
  have hlen : ps.length = 5 := by
    have := congrArg List.length hps
    simp only [List.length_map] at this
    rw [← this, hlen5 array harr]
  exact ⟨rows, cols, ps, hps, perm_range_five ps hlen hnd hlt⟩

/-! ## The puzzle is satisfiable -/

set_option maxRecDepth 100000 in
theorem puzzle_check :
    (encode_puzzle init).map (fun s =>
      decide (satisfies solution (clauses s) = true ∧
        arrayPtrs.map (decode s solution) = solutionGrid.map some)) = some true := by
  decide!

/-- C7. The clauses sent by `main` are satisfiable: the assignment `solution`
satisfies every one of them, and it decodes to the grid Norvegien / Jaune / Eau /
Dunhill / Chats in house 0, up to Suedois / Blanche / Biere / Bluemaster /
Chiens in house 4. -/
theorem puzzle_satisfiable :
    ∃ s, encode_puzzle init = some s ∧
      (∃ a : Assignment, satisfies a (clauses s) = true) ∧
      satisfies solution (clauses s) = true ∧
      arrayPtrs.map (decode s solution) = solutionGrid.map some := by
  obtain ⟨s, hs, hd⟩ := Option.map_eq_some'.mp puzzle_check
  simp only [decide_eq_true_eq] at hd
  exact ⟨s, hs, ⟨solution, hd.1⟩, hd.1, hd.2⟩

/-! ## The decoder -/

theorem foldl_set_spec (h : String → Nat) (vs : List String) (hnd : (vs.map h).Nodup)
    (out : List String) (hlt : ∀ v ∈ vs, h v < out.length) :
    (vs.foldl (fun o v => o.set (h v) v) out).length = out.length ∧
    (∀ v ∈ vs, (vs.foldl (fun o v => o.set (h v) v) out)[h v]? = some v) ∧
    (∀ j, j ∉ vs.map h → (vs.foldl (fun o v => o.set (h v) v) out)[j]? = out[j]?) := by
  induction vs generalizing out with
  | nil => simp
  | cons v r ih =>
    rw [List.map_cons, List.nodup_cons] at hnd
    have hlt' : ∀ w ∈ r, h w < (out.set (h v) v).length := by
      intro w hw
      rw [List.length_set]
      exact hlt w (List.mem_cons_of_mem _ hw)
    obtain ⟨h1, h2, h3⟩ := ih hnd.2 (out.set (h v) v) hlt'
    have hv : h v < out.length := hlt v (List.mem_cons_self _ _)
    refine ⟨by rw [List.foldl_cons, h1, List.length_set], ?_, ?_⟩
    · intro w hw
      rw [List.foldl_cons]
      rcases List.mem_cons.mp hw with rfl | hw
      · rw [h3 _ hnd.1, List.getElem?_set_self hv]
      · exact h2 w hw
    · intro j hj
      rw [List.foldl_cons, h3 j (fun hj' => hj (List.mem_cons_of_mem _ hj'))]
      have hne : h v ≠ j := fun e => hj (e ▸ List.mem_cons_self _ _)
      rw [List.getElem?_set_ne hne]

theorem eq_map_range_getD (l : List String) (n : Nat) (hl : l.length = n) :
    l = (List.range n).map (fun j => l.getD j "") := by
  apply List.ext_getElem
  · simp [hl]
  · intro i h1 h2
    simp [List.getD_eq_getElem?_getD, List.getElem?_eq_getElem h1]

theorem decode_five (s : State) (a : Assignment) (h : String → Nat) (v0 v1 v2 v3 v4 : String)
    (hg : ∀ v ∈ [v0, v1, v2, v3, v4], get_house s a v = some (h v))
    (hp : ∀ v ∈ [v0, v1, v2, v3, v4], h v < 5) :
    decode s a [v0, v1, v2, v3, v4] =
      some ([v0, v1, v2, v3, v4].foldl (fun o v => o.set (h v) v) (List.replicate 5 "")) := by
  have g0 := hg v0 (by simp)
  have g1 := hg v1 (by simp)
  have g2 := hg v2 (by simp)
  have g3 := hg v3 (by simp)
  have g4 := hg v4 (by simp)
  have q0 := hp v0 (by simp)
  have q1 := hp v1 (by simp)
  have q2 := hp v2 (by simp)
  have q3 := hp v3 (by simp)
  have q4 := hp v4 (by simp)
  simp [decode, populate_lit_values_array, NUM_ATTRIBUTES, List.range, List.range.loop,
    g0, g1, g2, g3, g4, q0, q1, q2, q3, q4, bind, Option.bind]

theorem isAt_house (s : State) (a : Assignment) (v : String) (hV : Registered s v)
    (h : exactlyOne a (s.var2lit v)) (i : Nat) (hi : i < 5) :
    isAt s a v (i : Int) = true ↔ get_house s a v = some i := by
  obtain ⟨p, hp, hg, hl⟩ := row_position s a v hV h
  obtain ⟨x0, x1, x2, x3, x4, hk, -⟩ := registered_lits hV
  have : ∃ l, lit s v i = some l := by
    obtain rfl | rfl | rfl | rfl | rfl : i = 0 ∨ i = 1 ∨ i = 2 ∨ i = 3 ∨ i = 4 := by omega
    all_goals simp [lit, hk]
  obtain ⟨l, hlit⟩ := this
  have hat : litAt s v (i : Int) = some l := by simp [litAt, hlit]
  simp only [isAt, hat, hl i hi l hlit, hg, decide_eq_true_eq, Option.some.injEq]
  exact eq_comm

/-- C8. For a category of the puzzle whose values are registered in `s`, and an
assignment in which every value of the category has exactly one true position
literal and every house exactly one true value literal, the decoder
(`populate_lit_values_array` on the empty array of `print_table`) returns a
sequence of length 5 that is a permutation of the category's values and whose
entry `i` is the one value of the category whose literal at house `i` is
true. -/
theorem decode_correct (s : State) (a : Assignment) (array : List String)
    (harr : array ∈ arrayPtrs) (hreg : ∀ v ∈ array, Registered s v)
    (rows : ∀ v ∈ array, exactlyOne a (s.var2lit v))
    (cols : ∀ i, i < 5 → exactlyOne a (column s array i)) :
    ∃ out, decode s a array = some out ∧ out.length = 5 ∧ out.Perm array ∧
      ∀ i : Nat, i < 5 → ∃ v ∈ array, out[i]? = some v ∧ isAt s a v (i : Int) = true ∧
        ∀ w ∈ array, isAt s a w (i : Int) = true → w = v := by
  obtain ⟨ps, hps, hnd, hlt⟩ := houses_nodup s a array hreg rows
    (fun i hi => by have := cols i hi; unfold exactlyOne at this; omega)
  have hlen5 : ∀ arr ∈ arrayPtrs, arr.length = 5 := by decide
  have hlen : ps.length = 5 := by
    have := congrArg List.length hps
    simp only [List.length_map] at this
    rw [← this, hlen5 array harr]
  have hperm := perm_range_five ps hlen hnd hlt
  -- the house of a value, as a total function
  obtain ⟨h, hh⟩ : ∃ h : String → Nat, h = fun v => (get_house s a v).getD 0 := ⟨_, rfl⟩
  have hmap : array.map h = ps := by
    have := congrArg (List.map (fun o : Option Nat => o.getD 0)) hps
    simp only [List.map_map] at this
    have e : ((fun o : Option Nat => o.getD 0) ∘ some) = id := rfl
    rw [e, List.map_id] at this
    rw [hh]
    exact this
  have hg : ∀ v ∈ array, get_house s a v = some (h v) := by
    intro v hv
    have : get_house s a v ∈ ps.map some := by rw [← hps]; exact List.mem_map_of_mem _ hv
    obtain ⟨p, -, hp⟩ := List.mem_map.mp this
    simp [hh, ← hp]
  have hp : ∀ v ∈ array, h v < 5 := by
    intro v hv
    exact hlt _ (by rw [← hmap]; exact List.mem_map_of_mem _ hv)
  have hinj : ∀ v ∈ array, ∀ w ∈ array, h v = h w → v = w :=
    List.inj_on_of_nodup_map (by rw [hmap]; exact hnd)
  obtain ⟨v0, v1, v2, v3, v4, rfl⟩ : ∃ v0 v1 v2 v3 v4, array = [v0, v1, v2, v3, v4] := by
    have := hlen5 array harr
    match array, this with
    | [v0, v1, v2, v3, v4], _ => exact ⟨v0, v1, v2, v3, v4, rfl⟩
  have hspec := foldl_set_spec h [v0, v1, v2, v3, v4] (by rw [hmap]; exact hnd)
    (List.replicate 5 "")
    (by intro v hv; rw [List.length_replicate]; exact hp v hv)
  obtain ⟨s1, s2, -⟩ := hspec
  refine ⟨_, decode_five s a h v0 v1 v2 v3 v4 hg hp, by simp, ?_, ?_⟩
  · have hout := eq_map_range_getD _ 5 (by simp :
      ([v0, v1, v2, v3, v4].foldl (fun o v => o.set (h v) v) (List.replicate 5 "")).length = 5)
    have harr' : [v0, v1, v2, v3, v4] = ([v0, v1, v2, v3, v4].map h).map (fun j =>
        ([v0, v1, v2, v3, v4].foldl (fun o v => o.set (h v) v) (List.replicate 5 "")).getD j "") := by
      rw [List.map_map]
      conv_lhs => rw [← List.map_id [v0, v1, v2, v3, v4]]
      apply List.map_congr_left
      intro v hv
      simp only [Function.comp, id, List.getD_eq_getElem?_getD, s2 v hv, Option.getD_some]
    rw [hmap] at harr'
    rw [hout]
    conv_rhs => rw [harr']
    exact (hperm.map _).symm
  · intro i hi
    have hi' : i ∈ ps := hperm.mem_iff.mpr (List.mem_range.mpr hi)
    rw [← hmap] at hi'
    obtain ⟨v, hv, rfl⟩ := List.mem_map.mp hi'
    refine ⟨v, hv, s2 v hv, ?_, ?_⟩
    · exact (isAt_house s a v (hreg v hv) (rows v hv) _ hi).mpr (hg v hv)
    · intro w hw hat
      have := (isAt_house s a w (hreg w hw) (rows w hw) _ hi).mp hat
      rw [hg w hw] at this
      exact hinj w hw v hv (Option.some.inj this)

set_option maxRecDepth 100000 in
/-- C8 at the nationalities and the solution of the puzzle. -/
theorem decode_correct_witness :
    ∃ out, decode registeredState solution nationalites = some out ∧ out.length = 5 ∧
      out.Perm nationalites ∧
      ∀ i : Nat, i < 5 → ∃ v ∈ nationalites, out[i]? = some v ∧
        isAt registeredState solution v (i : Int) = true ∧
        ∀ w ∈ nationalites, isAt registeredState solution w (i : Int) = true → w = v :=
  decode_correct registeredState solution nationalites (by decide)
    (fun v hv => registered_registeredState v
      (List.mem_flatten.mpr ⟨nationalites, by decide, hv⟩))
    (by decide!) (by decide!)

theorem get_house_of_isAt (s : State) (a : Assignment) (v : String) (hV : Registered s v)
    (h : ∃ i : Nat, i < 5 ∧ isAt s a v (i : Int) = true) :
    ∃ p, p < 5 ∧ get_house s a v = some p := by
  obtain ⟨x0, x1, x2, x3, x4, hk, p0, p1, p2, p3, p4⟩ := registered_lits hV
  have hg : get_house s a v =
      (if a x0.natAbs = true then some 0 else if a x1.natAbs = true then some 1
        else if a x2.natAbs = true then some 2 else if a x3.natAbs = true then some 3
        else if a x4.natAbs = true then some 4 else none) := by
    simp [get_house, get_house_loop, hk, NUM_ATTRIBUTES, val_pos, p0, p1, p2, p3, p4]
  obtain ⟨i, hi, hat⟩ := h
  rw [hg]
  obtain rfl | rfl | rfl | rfl | rfl : i = 0 ∨ i = 1 ∨ i = 2 ∨ i = 3 ∨ i = 4 := by omega
  all_goals
    simp [isAt, litAt, lit, hk, litTrue_pos, p0, p1, p2, p3, p4] at hat
    split_ifs <;> exact ⟨_, by decide, rfl⟩

theorem mem_foldl_set (h : String → Nat) (vs : List String) (out : List String) :
    ∀ x ∈ vs.foldl (fun o v => o.set (h v) v) out, x ∈ out ∨ x ∈ vs := by
  induction vs generalizing out with
  | nil => intro x hx; exact Or.inl hx
  | cons v r ih =>
    intro x hx
    rw [List.foldl_cons] at hx
    rcases ih _ x hx with h1 | h1
    · rcases List.mem_or_eq_of_mem_set h1 with h2 | h2
      · exact Or.inl h2
      · exact Or.inr (h2 ▸ List.mem_cons_self _ _)
    · exact Or.inr (List.mem_cons_of_mem _ h1)

set_option maxRecDepth 100000 in
/-- C9, as stated, fails: with `Britannique` and `Suedois` both true at house 0
the decoder returns a table, in which `Suedois` has overwritten `Britannique`
and house 1 is empty. -/
theorem decode_clash_returns_table :
    isAt registeredState clash "Britannique" 0 = true ∧
      isAt registeredState clash "Suedois" 0 = true ∧
      decode registeredState clash nationalites =
        some ["Suedois", "", "Danois", "Norvegien", "Allemand"] := by
  decide!

/-- C9, amended. For every assignment in which two values of a category are
both true at the same house, and every value of the category has a true
position literal, the decoder raises nothing: it returns a table of length 5
whose entries are values of the category or the empty string. -/
theorem decode_no_detection (s : State) (a : Assignment) (array : List String)
    (harr : array ∈ arrayPtrs) (hreg : ∀ v ∈ array, Registered s v)
    (hsome : ∀ v ∈ array, ∃ i : Nat, i < 5 ∧ isAt s a v (i : Int) = true)
    (_hclash : ∃ v ∈ array, ∃ w ∈ array, v ≠ w ∧
      ∃ i : Nat, i < 5 ∧ isAt s a v (i : Int) = true ∧ isAt s a w (i : Int) = true) :
    ∃ out, decode s a array = some out ∧ out.length = 5 ∧
      ∀ x ∈ out, x ∈ array ∨ x = "" := by
  have hlen5 : ∀ arr ∈ arrayPtrs, arr.length = 5 := by decide
  obtain ⟨h, hh⟩ : ∃ h : String → Nat, h = fun v => (get_house s a v).getD 0 := ⟨_, rfl⟩
  have hg : ∀ v ∈ array, get_house s a v = some (h v) ∧ h v < 5 := by
    intro v hv
    obtain ⟨p, hp, hgp⟩ := get_house_of_isAt s a v (hreg v hv) (hsome v hv)
    simp [hh, hgp, hp]
  obtain ⟨v0, v1, v2, v3, v4, rfl⟩ : ∃ v0 v1 v2 v3 v4, array = [v0, v1, v2, v3, v4] := by
    have := hlen5 array harr
    match array, this with
    | [v0, v1, v2, v3, v4], _ => exact ⟨v0, v1, v2, v3, v4, rfl⟩
  refine ⟨_, decode_five s a h v0 v1 v2 v3 v4 (fun v hv => (hg v hv).1)
    (fun v hv => (hg v hv).2), by simp, ?_⟩
  intro x hx
  rcases mem_foldl_set h _ _ x hx with h1 | h1
  · exact Or.inr (List.eq_of_mem_replicate h1)
  · exact Or.inl h1

set_option maxRecDepth 100000 in
/-- The amended C9 at the nationalities and the assignment `clash`. -/
theorem decode_no_detection_witness :
    ∃ out, decode registeredState clash nationalites = some out ∧ out.length = 5 ∧
      ∀ x ∈ out, x ∈ nationalites ∨ x = "" :=
  decode_no_detection registeredState clash nationalites (by decide)
    (fun v hv => registered_registeredState v
      (List.mem_flatten.mpr ⟨nationalites, by decide, hv⟩))
    (by decide!) (by decide!)

/-! ## Soundness of the refutation checker and uniqueness of the solution -/

theorem toMask_true (a : Assignment) (c : List Int) (h : clauseTrue a c = true) :
    maskTrue a (toMask c) := by
  induction c with
  | nil => simp [clauseTrue] at h
  | cons l r ih =>
    simp only [clauseTrue, List.any_cons, Bool.or_eq_true] at h
    unfold toMask
    rcases h with h | h
    · unfold litTrue at h
      by_cases hl : 0 < l
      · simp only [hl, if_true] at h ⊢
        exact ⟨l.natAbs, Or.inl ⟨by simp [Nat.testBit_or, Nat.testBit_two_pow_self], h⟩⟩
      · simp only [hl, if_false] at h ⊢
        exact ⟨l.natAbs, Or.inr ⟨by simp [Nat.testBit_or, Nat.testBit_two_pow_self],
          by simpa using h⟩⟩
    · obtain ⟨v, hv⟩ := ih h
      refine ⟨v, ?_⟩
      by_cases hl : 0 < l
      · simp only [hl, if_true]
        rcases hv with ⟨h1, h2⟩ | ⟨h1, h2⟩
        · exact Or.inl ⟨by simp [Nat.testBit_or, h1], h2⟩
        · exact Or.inr ⟨h1, h2⟩
      · simp only [hl, if_false]
        rcases hv with ⟨h1, h2⟩ | ⟨h1, h2⟩
        · exact Or.inl ⟨h1, h2⟩
        · exact Or.inr ⟨by simp [Nat.testBit_or, h1], h2⟩

theorem testBit_rest (p f v : Nat) :
    (p ^^^ (p &&& f)).testBit v = (p.testBit v && !f.testBit v) := by
  rw [Nat.testBit_xor, Nat.testBit_and]
  cases p.testBit v <;> cases f.testBit v <;> rfl

theorem eq_of_beq {x y : Nat} (h : Nat.beq x y = true) : x = y := Nat.eq_of_beq_eq_true h

theorem isUnit_spec {r : Nat} (h : isUnit r = true) : ∃ k, ∀ v, r.testBit v = true → v = k := by
  unfold isUnit at h
  rw [Bool.and_eq_true] at h
  have h2 := eq_of_beq h.2
  refine ⟨bitIndex r, ?_⟩
  intro v hv
  rw [h2, Nat.testBit_two_pow] at hv
  exact (of_decide_eq_true hv).symm

theorem zero_testBit_of_beq {x : Nat} (h : Nat.beq x 0 = true) (v : Nat) :
    x.testBit v = false := by
  rw [eq_of_beq h]; exact Nat.zero_testBit v

theorem agrees_or_true (a : Assignment) (T F r : Nat) (h : agrees a T F)
    (hr : ∀ v, r.testBit v = true → a v = true) : agrees a (T ||| r) F := by
  intro v
  refine ⟨?_, (h v).2⟩
  intro hv
  rw [Nat.testBit_or, Bool.or_eq_true] at hv
  rcases hv with hv | hv
  · exact (h v).1 hv
  · exact hr v hv

theorem agrees_or_false (a : Assignment) (T F r : Nat) (h : agrees a T F)
    (hr : ∀ v, r.testBit v = true → a v = false) : agrees a T (F ||| r) := by
  intro v
  refine ⟨(h v).1, ?_⟩
  intro hv
  rw [Nat.testBit_or, Bool.or_eq_true] at hv
  rcases hv with hv | hv
  · exact (h v).2 hv
  · exact hr v hv

/-- A true clause has a true literal among those the partial assignment
leaves open. -/
theorem rest_true (a : Assignment) (P N T F : Nat) (h : agrees a T F)
    (hc : maskTrue a (P, N)) :
    ∃ v, ((P ^^^ (P &&& F)).testBit v = true ∧ a v = true) ∨
      ((N ^^^ (N &&& T)).testBit v = true ∧ a v = false) := by
  obtain ⟨v, hv⟩ := hc
  refine ⟨v, ?_⟩
  rcases hv with ⟨h1, h2⟩ | ⟨h1, h2⟩
  · left
    refine ⟨?_, h2⟩
    rw [testBit_rest, h1]
    cases hf : F.testBit v
    · rfl
    · have := (h v).2 hf
      rw [h2] at this
      exact absurd this (by decide)
  · right
    refine ⟨?_, h2⟩
    rw [testBit_rest, h1]
    cases ht : T.testBit v
    · rfl
    · have := (h v).1 ht
      rw [h2] at this
      exact absurd this (by decide)

theorem propagate_sound (a : Assignment) (cs : List (Nat × Nat))
    (hcs : ∀ c ∈ cs, maskTrue a c) (T F : Nat) (h : agrees a T F) :
    ∃ T' F', propagate cs T F = some (T', F') ∧ agrees a T' F' := by
  induction cs generalizing T F with
  | nil => exact ⟨T, F, rfl, h⟩
  | cons c r ih =>
    obtain ⟨P, N⟩ := c
    have hr : ∀ c ∈ r, maskTrue a c := fun c hc => hcs c (List.mem_cons_of_mem _ hc)
    obtain ⟨v, hv⟩ := rest_true a P N T F h (hcs (P, N) (List.mem_cons_self _ _))
    unfold propagate
    by_cases hp : Nat.beq (P ^^^ (P &&& F)) 0 = true
    · rw [if_pos hp]
      have hv' : (N ^^^ (N &&& T)).testBit v = true ∧ a v = false := by
        rcases hv with ⟨h1, _⟩ | hv
        · rw [zero_testBit_of_beq hp] at h1
          exact absurd h1 (by decide)
        · exact hv
      by_cases hn : Nat.beq (N ^^^ (N &&& T)) 0 = true
      · rw [zero_testBit_of_beq hn] at hv'
        exact absurd hv'.1 (by decide)
      · rw [if_neg hn]
        by_cases hu : isUnit (N ^^^ (N &&& T)) = true
        · rw [if_pos hu]
          obtain ⟨k, hk⟩ := isUnit_spec hu
          apply ih hr
          apply agrees_or_false a T F _ h
          intro w hw
          rw [hk w hw, ← hk v hv'.1]
          exact hv'.2
        · rw [if_neg hu]
          exact ih hr T F h
    · rw [if_neg hp]
      by_cases hn : Nat.beq (N ^^^ (N &&& T)) 0 = true
      · rw [if_pos hn]
        have hv' : (P ^^^ (P &&& F)).testBit v = true ∧ a v = true := by
          rcases hv with hv | ⟨h1, _⟩
          · exact hv
          · rw [zero_testBit_of_beq hn] at h1
            exact absurd h1 (by decide)
        by_cases hu : isUnit (P ^^^ (P &&& F)) = true
        · rw [if_pos hu]
          obtain ⟨k, hk⟩ := isUnit_spec hu
          apply ih hr
          apply agrees_or_true a T F _ h
          intro w hw
          rw [hk w hw, ← hk v hv'.1]
          exact hv'.2
        · rw [if_neg hu]
          exact ih hr T F h
      · rw [if_neg hn]
        exact ih hr T F h

theorem refuteBy_sound (a : Assignment) (cs : List (Nat × Nat))
    (hcs : ∀ c ∈ cs, maskTrue a c) (sc : Script) (T F : Nat) (h : agrees a T F) :
    refuteBy sc cs T F = false := by
  induction sc generalizing T F with
  | stop => rfl
  | pass next ih =>
    obtain ⟨T', F', hp, h'⟩ := propagate_sound a cs hcs T F h
    simp only [refuteBy, hp]
    exact ih T' F' h'
  | split k yes no ih1 ih2 =>
    simp only [refuteBy]
    cases hk : a k
    · have : agrees a T (F ||| 2 ^ k) := by
        apply agrees_or_false a T F _ h
        intro w hw
        rw [Nat.testBit_two_pow] at hw
        rw [← of_decide_eq_true hw]
        exact hk
      rw [ih2 _ _ this, Bool.and_false]
    · have : agrees a (T ||| 2 ^ k) F := by
        apply agrees_or_true a T F _ h
        intro w hw
        rw [Nat.testBit_two_pow] at hw
        rw [← of_decide_eq_true hw]
        exact hk
      rw [ih1 _ _ this, Bool.false_and]

set_option maxRecDepth 1000000 in
theorem uniqueness_check :
    (encode_puzzle init).map (fun s =>
      refuteBy uniquenessScript ((clauses s ++ [blocking]).map toMask) 0 0) = some true := by
  decide!

theorem blocking_true (a : Assignment) (v : Nat) (h1 : 1 ≤ v) (h2 : v ≤ 125)
    (hne : a v ≠ solution v) : clauseTrue a blocking = true := by
  unfold clauseTrue blocking
  rw [List.any_eq_true]
  refine ⟨if v ∈ solutionVars then -(v : Int) else (v : Int),
    List.mem_map.mpr ⟨v, List.mem_range'_1.mpr ⟨h1, by omega⟩, rfl⟩, ?_⟩
  unfold solution at hne
  by_cases hv : v ∈ solutionVars
  · have hneg : ¬ (0 : Int) < -(v : Int) := by omega
    simp only [hv, if_true, litTrue, hneg, if_false, Int.natAbs_neg, Int.natAbs_ofNat]
    simp only [hv, decide_True] at hne
    cases ha : a v
    · rfl
    · exact absurd ha hne
  · have hpos : (0 : Int) < (v : Int) := by omega
    simp only [hv, if_false, litTrue, hpos, if_true, Int.natAbs_ofNat]
    simp only [hv, decide_False] at hne
    cases ha : a v
    · exact absurd ha hne
    · rfl

/-- Every assignment that satisfies the clauses sent by `main` agrees with
`solution` on the variables 1 to 125. -/
theorem model_unique (s : State) (hs : encode_puzzle init = some s) (a : Assignment)
    (ha : satisfies a (clauses s) = true) (v : Nat) (h1 : 1 ≤ v) (h2 : v ≤ 125) :
    a v = solution v := by
  by_contra hne
  have hb := blocking_true a v h1 h2 hne
  have hall : ∀ c ∈ (clauses s ++ [blocking]).map toMask, maskTrue a c := by
    intro c hc
    obtain ⟨d, hd, rfl⟩ := List.mem_map.mp hc
    apply toMask_true
    rcases List.mem_append.mp hd with hd | hd
    · exact List.all_eq_true.mp ha d hd
    · rw [List.mem_singleton.mp hd]; exact hb
  have hz : agrees a 0 0 := by
    intro w
    simp [Nat.zero_testBit]
  have hf := refuteBy_sound a _ hall uniquenessScript 0 0 hz
  have hc := uniqueness_check
  rw [hs] at hc
  simp only [Option.map_some', Option.some.injEq] at hc
  rw [hf] at hc
  exact absurd hc (by decide)

theorem get_house_loop_congr (a b : Assignment) (lits : List Int)
    (h : ∀ l ∈ lits, a l.natAbs = b l.natAbs) (i fuel : Nat) :
    get_house_loop a lits i fuel = get_house_loop b lits i fuel := by
  induction fuel generalizing i with
  | zero => rfl
  | succ n ih =>
    unfold get_house_loop
    cases hl : lits[i]? with
    | none => rfl
    | some l =>
      have hm : l ∈ lits := List.getElem?_mem hl
      have : val a l = val b l := by simp [val, litTrue, h l hm]
      simp only [this, ih]

theorem populate_congr (s : State) (a b : Assignment) (vars out : List String)
    (h : ∀ v ∈ vars, get_house s a v = get_house s b v) :
    populate_lit_values_array s a vars out = populate_lit_values_array s b vars out := by
  unfold populate_lit_values_array
  congr 1
  funext o i
  cases hv : vars[i]? with
  | none => rfl
  | some v =>
    have hm : v ∈ vars := List.getElem?_mem hv
    simp [h v hm]

set_option maxRecDepth 100000 in
theorem puzzle_table :
    (encode_puzzle init).map (fun s =>
      decide (allValues.map s.var2lit = registryTable ∧
        get_house s solution "Lait" = some 2 ∧
        get_house s solution "Norvegien" = some 0)) = some true := by
  decide!

theorem registryTable_range : ∀ g ∈ registryTable, ∀ l ∈ g, 1 ≤ l.natAbs ∧ l.natAbs ≤ 125 := by
  decide

/-- C6. Every assignment that satisfies all clauses sent by `main` is `solution`
on the variables 1 to 125, so it decodes to one grid: `solutionGrid`.  In it
`Lait` is in house 2 and `Norvegien` in house 0, and the decoded row of each
category is a permutation of the category's five values. -/
theorem puzzle_unique :
    ∃ s, encode_puzzle init = some s ∧
      ∀ a : Assignment, satisfies a (clauses s) = true →
        (∀ v, 1 ≤ v → v ≤ 125 → a v = solution v) ∧
        arrayPtrs.map (decode s a) = solutionGrid.map some ∧
        get_house s a "Lait" = some 2 ∧ get_house s a "Norvegien" = some 0 ∧
        ∀ array ∈ arrayPtrs, ∃ out, decode s a array = some out ∧ out.Perm array := by
  obtain ⟨s, hs, hd⟩ := Option.map_eq_some'.mp puzzle_check
  simp only [decide_eq_true_eq] at hd
  obtain ⟨s', hs', hd'⟩ := Option.map_eq_some'.mp puzzle_table
  simp only [decide_eq_true_eq] at hd'
  obtain rfl : s' = s := Option.some.inj (hs'.symm.trans hs)
  refine ⟨s', hs, ?_⟩
  intro a ha
  have huniq := model_unique s' hs a ha
  have hhouse : ∀ v ∈ allValues, get_house s' a v = get_house s' solution v := by
    intro v hv
    apply get_house_loop_congr
    intro l hl
    have hg : s'.var2lit v ∈ registryTable := by
      rw [← hd'.1]; exact List.mem_map_of_mem _ hv
    obtain ⟨h1, h2⟩ := registryTable_range _ hg l hl
    exact huniq _ h1 h2
  have hdec : ∀ array ∈ arrayPtrs, decode s' a array = decode s' solution array := by
    intro array harr
    apply populate_congr
    intro v hv
    exact hhouse v (List.mem_flatten.mpr ⟨array, harr, hv⟩)
  have hmap : arrayPtrs.map (decode s' a) = solutionGrid.map some := by
    rw [← hd.2]
    exact List.map_congr_left hdec
  refine ⟨huniq, hmap, ?_, ?_, ?_⟩
  · rw [hhouse "Lait" (by decide)]; exact hd'.2.1
  · rw [hhouse "Norvegien" (by decide)]; exact hd'.2.2
  · have hperm : ∀ p ∈ List.zip arrayPtrs solutionGrid, p.2.Perm p.1 := by decide
    intro array harr
    obtain ⟨i, hi, rfl⟩ := List.getElem_of_mem harr
    have hi' : i < solutionGrid.length := by simpa [arrayPtrs, solutionGrid] using hi
    refine ⟨solutionGrid[i], ?_, ?_⟩
    · have := congrArg (fun l => l[i]?) hmap
      simpa [List.getElem?_map, List.getElem?_eq_getElem hi, List.getElem?_eq_getElem hi'] using this
    · exact hperm (arrayPtrs[i], solutionGrid[i])
        (by rw [List.mem_iff_getElem]; exact ⟨i, by simpa [arrayPtrs, solutionGrid] using hi, by simp⟩)

/-! ## Double implication and linked attributes -/

theorem double_implication_eq (lit1 lit2 : Int) (s : State) :
    encode_double_implication lit1 lit2 s =
      { s with stream := [0, lit2, -lit1, 0, -lit2, lit1] ++ s.stream,
               numberOfClauses := s.numberOfClauses + 1 + 1 } := by
  simp [encode_double_implication, add_eq]

theorem representable_neg {l : Int} (h : representable l) : representable (-l) := by
  unfold representable at h ⊢
  omega

/-- C12. For non-zero literals `lit1`, `lit2` that the source can negate (both
of absolute value at most `INT_MAX`), `encode_double_implication` sends exactly
the clauses `{lit1, -lit2}` and `{-lit1, lit2}`, whose literals are again values
of `int`, and an assignment satisfies both if and only if `lit1` and `lit2`
have the same truth value. -/
theorem double_implication_iff (lit1 lit2 : Int) (h1 : lit1 ≠ 0) (h2 : lit2 ≠ 0)
    (r1 : representable lit1) (r2 : representable lit2)
    (a : Assignment) (s : State) :
    emitted s (encode_double_implication lit1 lit2 s) = [[lit1, -lit2], [-lit1, lit2]] ∧
    (∀ c ∈ emitted s (encode_double_implication lit1 lit2 s), ∀ l ∈ c, representable l) ∧
    (satisfies a (emitted s (encode_double_implication lit1 lit2 s)) = true ↔
      litTrue a lit1 = litTrue a lit2) := by
  have he : emitted s (encode_double_implication lit1 lit2 s) =
      [[lit1, -lit2], [-lit1, lit2]] := by
    rw [double_implication_eq, emitted_append]
    have : [0, lit2, -lit1, 0, -lit2, lit1].reverse = flat [[lit1, -lit2], [-lit1, lit2]] := by
      simp [flat]
    rw [this, clausesOf_flat _ (by simp [h1, h2])]
  refine ⟨he, ?_, ?_⟩
  · rw [he]
    intro c hc l hl
    simp only [List.mem_cons, List.mem_singleton, List.not_mem_nil, or_false] at hc
    rcases hc with rfl | rfl
    · simp only [List.mem_cons, List.mem_singleton, List.not_mem_nil, or_false] at hl
      rcases hl with rfl | rfl
      · exact r1
      · exact representable_neg r2
    · simp only [List.mem_cons, List.mem_singleton, List.not_mem_nil, or_false] at hl
      rcases hl with rfl | rfl
      · exact representable_neg r1
      · exact r2
  · rw [he]
    simp only [satisfies, clauseTrue, List.all_cons, List.all_nil, List.any_cons, List.any_nil,
      litTrue_neg_ne a lit1 h1, litTrue_neg_ne a lit2 h2]
    cases litTrue a lit1 <;> cases litTrue a lit2 <;> simp

/-- C12 at the literals 1 and 26 (`Britannique` and `The` in house 0) and the
solution of the puzzle. -/
theorem double_implication_iff_witness :
    emitted init (encode_double_implication 1 26 init) = [[1, -26], [-1, 26]] ∧
    (∀ c ∈ emitted init (encode_double_implication 1 26 init), ∀ l ∈ c, representable l) ∧
    (satisfies solution (emitted init (encode_double_implication 1 26 init)) = true ↔
      litTrue solution 1 = litTrue solution 26) :=
  double_implication_iff 1 26 (by decide) (by decide) (by decide) (by decide) solution init

theorem linked_eq {s : State} {A B : String} {x0 x1 x2 x3 x4 y0 y1 y2 y3 y4 : Int}
    (hA : s.var2lit A = [x0, x1, x2, x3, x4]) (hB : s.var2lit B = [y0, y1, y2, y3, y4]) :
    encode_linked_attributes A B s =
      some { s with
        stream := [0, y4, -x4, 0, -y4, x4, 0, y3, -x3, 0, -y3, x3, 0, y2, -x2, 0, -y2, x2,
                   0, y1, -x1, 0, -y1, x1, 0, y0, -x0, 0, -y0, x0] ++ s.stream,
        numberOfClauses := s.numberOfClauses + 10 } := by
  simp [encode_linked_attributes, encode_double_implication, lit, hA, hB, add_eq,
    NUM_ATTRIBUTES, List.range, List.range.loop, bind, Option.bind]
  omega

theorem eq_iff_clauses (p q : Bool) : ((p = true ∨ q = false) ∧ (p = false ∨ q = true)) ↔ p = q := by
  cases p <;> cases q <;> simp

/-- C11. For registered values `A` and `B`, an assignment satisfies the clauses
sent by `encode_linked_attributes(A, B)` if and only if the literals of `A` and
of `B` at house `i` have the same truth value for every `i` in `[0, 5)`; when
`A` and `B` each have exactly one true position literal they are then in the
same house. -/
theorem linked_attributes_iff (s : State) (A B : String) (a : Assignment)
    (hA : Registered s A) (hB : Registered s B) :
    ∃ t, encode_linked_attributes A B s = some t ∧
      (satisfies a (emitted s t) = true ↔
        ∀ i : Nat, i < 5 → isAt s a A (i : Int) = isAt s a B (i : Int)) ∧
      (exactlyOne a (s.var2lit A) → exactlyOne a (s.var2lit B) →
        satisfies a (emitted s t) = true →
        ∃ p, p < 5 ∧ get_house s a A = some p ∧ get_house s a B = some p) := by
  obtain ⟨x0, x1, x2, x3, x4, hk, p0, p1, p2, p3, p4⟩ := registered_lits hA
  obtain ⟨y0, y1, y2, y3, y4, hm, q0, q1, q2, q3, q4⟩ := registered_lits hB
  have hflat : [0, y4, -x4, 0, -y4, x4, 0, y3, -x3, 0, -y3, x3, 0, y2, -x2, 0, -y2, x2,
      0, y1, -x1, 0, -y1, x1, 0, y0, -x0, 0, -y0, x0].reverse =
      flat [[x0, -y0], [-x0, y0], [x1, -y1], [-x1, y1], [x2, -y2], [-x2, y2],
        [x3, -y3], [-x3, y3], [x4, -y4], [-x4, y4]] := by
    simp [flat]
  have hiff : satisfies a (emitted s { s with
        stream := [0, y4, -x4, 0, -y4, x4, 0, y3, -x3, 0, -y3, x3, 0, y2, -x2, 0, -y2, x2,
                   0, y1, -x1, 0, -y1, x1, 0, y0, -x0, 0, -y0, x0] ++ s.stream,
        numberOfClauses := s.numberOfClauses + 10 }) = true ↔
      (a x0.natAbs = a y0.natAbs ∧ a x1.natAbs = a y1.natAbs ∧ a x2.natAbs = a y2.natAbs ∧
        a x3.natAbs = a y3.natAbs ∧ a x4.natAbs = a y4.natAbs) := by
    rw [emitted_append, hflat,
      clausesOf_flat _ (by simp [ne_zero_of_pos, p0, p1, p2, p3, p4, q0, q1, q2, q3, q4])]
    simp only [satisfies, clauseTrue, List.all_cons, List.all_nil, List.any_cons, List.any_nil,
      litTrue_pos a _ p0, litTrue_pos a _ p1, litTrue_pos a _ p2, litTrue_pos a _ p3,
      litTrue_pos a _ p4, litTrue_pos a _ q0, litTrue_pos a _ q1, litTrue_pos a _ q2,
      litTrue_pos a _ q3, litTrue_pos a _ q4, litTrue_neg a _ p0, litTrue_neg a _ p1,
      litTrue_neg a _ p2, litTrue_neg a _ p3, litTrue_neg a _ p4, litTrue_neg a _ q0,
      litTrue_neg a _ q1, litTrue_neg a _ q2, litTrue_neg a _ q3, litTrue_neg a _ q4]
    generalize a x0.natAbs = a0
    generalize a x1.natAbs = a1
    generalize a x2.natAbs = a2
    generalize a x3.natAbs = a3
    generalize a x4.natAbs = a4
    generalize a y0.natAbs = b0
    generalize a y1.natAbs = b1
    generalize a y2.natAbs = b2
    generalize a y3.natAbs = b3
    generalize a y4.natAbs = b4
    simp only [Bool.or_false, Bool.and_true, Bool.and_eq_true, Bool.or_eq_true,
      Bool.not_eq_true']
    constructor
    · rintro ⟨c0, d0, c1, d1, c2, d2, c3, d3, c4, d4⟩
      exact ⟨(eq_iff_clauses a0 b0).mp ⟨c0, d0⟩, (eq_iff_clauses a1 b1).mp ⟨c1, d1⟩,
        (eq_iff_clauses a2 b2).mp ⟨c2, d2⟩, (eq_iff_clauses a3 b3).mp ⟨c3, d3⟩,
        (eq_iff_clauses a4 b4).mp ⟨c4, d4⟩⟩
    · rintro ⟨e0, e1, e2, e3, e4⟩
      obtain ⟨c0, d0⟩ := (eq_iff_clauses a0 b0).mpr e0
      obtain ⟨c1, d1⟩ := (eq_iff_clauses a1 b1).mpr e1
      obtain ⟨c2, d2⟩ := (eq_iff_clauses a2 b2).mpr e2
      obtain ⟨c3, d3⟩ := (eq_iff_clauses a3 b3).mpr e3
      obtain ⟨c4, d4⟩ := (eq_iff_clauses a4 b4).mpr e4
      exact ⟨c0, d0, c1, d1, c2, d2, c3, d3, c4, d4⟩
  have hat : (∀ i : Nat, i < 5 → isAt s a A (i : Int) = isAt s a B (i : Int)) ↔
      (a x0.natAbs = a y0.natAbs ∧ a x1.natAbs = a y1.natAbs ∧ a x2.natAbs = a y2.natAbs ∧
        a x3.natAbs = a y3.natAbs ∧ a x4.natAbs = a y4.natAbs) := by
    constructor
    · intro h
      have h0 := h 0 (by decide)
      have h1 := h 1 (by decide)
      have h2 := h 2 (by decide)
      have h3 := h 3 (by decide)
      have h4 := h 4 (by decide)
      simp [isAt, litAt, lit, hk, hm, litTrue_pos, p0, p1, p2, p3, p4, q0, q1, q2, q3, q4]
        at h0 h1 h2 h3 h4
      exact ⟨h0, h1, h2, h3, h4⟩
    · rintro ⟨h0, h1, h2, h3, h4⟩ i hi
      obtain rfl | rfl | rfl | rfl | rfl : i = 0 ∨ i = 1 ∨ i = 2 ∨ i = 3 ∨ i = 4 := by omega
      all_goals
        simp [isAt, litAt, lit, hk, hm, litTrue_pos, p0, p1, p2, p3, p4, q0, q1, q2, q3, q4,
          h0, h1, h2, h3, h4]
  refine ⟨_, linked_eq hk hm, hiff.trans hat.symm, ?_⟩
  intro eA eB hs
  obtain ⟨h0, h1, h2, h3, h4⟩ := hiff.mp hs
  obtain ⟨p, hp, hg, -⟩ := row_position s a A hA eA
  refine ⟨p, hp, hg, ?_⟩
  rw [← hg]
  simp [get_house, get_house_loop, hk, hm, NUM_ATTRIBUTES, val_pos, p0, p1, p2, p3, p4,
    q0, q1, q2, q3, q4, h0, h1, h2, h3, h4]

set_option maxRecDepth 100000 in
/-- C11 at `Britannique` and `Rouge`, the first clue of `main`, and the solution
of the puzzle. -/
theorem linked_attributes_iff_witness :
    ∃ t, encode_linked_attributes "Britannique" "Rouge" registeredState = some t ∧
      (satisfies solution (emitted registeredState t) = true ↔
        ∀ i : Nat, i < 5 → isAt registeredState solution "Britannique" (i : Int) =
          isAt registeredState solution "Rouge" (i : Int)) ∧
      (exactlyOne solution (registeredState.var2lit "Britannique") →
        exactlyOne solution (registeredState.var2lit "Rouge") →
        satisfies solution (emitted registeredState t) = true →
        ∃ p, p < 5 ∧ get_house registeredState solution "Britannique" = some p ∧
          get_house registeredState solution "Rouge" = some p) :=
  linked_attributes_iff registeredState "Britannique" "Rouge" solution
    (registered_registeredState _ (by decide)) (registered_registeredState _ (by decide))

/-! ## The number of clauses of `encode_am1` -/

theorem pairClauses_length (c : List Int) : (pairClauses c).length = c.length.choose 2 := by
  induction c with
  | nil => rfl
  | cons x r ih =>
    rw [pairClauses, List.length_append, List.length_map, ih, List.length_cons,
      Nat.choose_succ_succ, Nat.choose_one_right]

/-- C13. For a list `vars` of `k` non-zero literals, `encode_am1(vars)` sends
the two-literal clauses `{-vars[i], -vars[j]}`, one for each pair `i < j` in
the order of the two loops, then the clause of all of `vars`: `C(k,2)` clauses
of two literals and `C(k,2) + 1` clauses in all, and `numberOfClauses` grows by
exactly `C(k,2) + 1`. -/
theorem encode_am1_count (vars : List Int) (hv : ∀ v ∈ vars, v ≠ 0) (s : State) :
    emitted s (encode_am1 vars s) =
      (List.range vars.length).flatMap (fun i =>
        (List.range' (i + 1) (vars.length - (i + 1))).map (fun j =>
          [-(vars.getD i 0), -(vars.getD j 0)])) ++ [vars] ∧
    ((List.range vars.length).flatMap (fun i =>
        (List.range' (i + 1) (vars.length - (i + 1))).map (fun j =>
          [-(vars.getD i 0), -(vars.getD j 0)]))).length = vars.length.choose 2 ∧
    (emitted s (encode_am1 vars s)).length = vars.length.choose 2 + 1 ∧
    (encode_am1 vars s).numberOfClauses =
      s.numberOfClauses + ((vars.length.choose 2 + 1 : Nat) : Int) := by
  rw [emitted_encode_am1 vars hv, pairs_index, encode_am1_eq vars hv]
  refine ⟨rfl, pairClauses_length vars, ?_, ?_⟩
  · simp [am1Clauses, pairClauses_length]
  · simp [am1Clauses, pairClauses_length]

/-- C13 at the five variables of `Britannique`: ten exclusions and one clause of
all five. -/
theorem encode_am1_count_witness :
    emitted init (encode_am1 [1, 2, 3, 4, 5] init) =
      (List.range ([1, 2, 3, 4, 5] : List Int).length).flatMap (fun i =>
        (List.range' (i + 1) (([1, 2, 3, 4, 5] : List Int).length - (i + 1))).map (fun j =>
          [-(([1, 2, 3, 4, 5] : List Int).getD i 0), -(([1, 2, 3, 4, 5] : List Int).getD j 0)]))
        ++ [[1, 2, 3, 4, 5]] ∧
    ((List.range ([1, 2, 3, 4, 5] : List Int).length).flatMap (fun i =>
        (List.range' (i + 1) (([1, 2, 3, 4, 5] : List Int).length - (i + 1))).map (fun j =>
          [-(([1, 2, 3, 4, 5] : List Int).getD i 0),
            -(([1, 2, 3, 4, 5] : List Int).getD j 0)]))).length =
      ([1, 2, 3, 4, 5] : List Int).length.choose 2 ∧
    (emitted init (encode_am1 [1, 2, 3, 4, 5] init)).length =
      ([1, 2, 3, 4, 5] : List Int).length.choose 2 + 1 ∧
    (encode_am1 [1, 2, 3, 4, 5] init).numberOfClauses =
      init.numberOfClauses + ((([1, 2, 3, 4, 5] : List Int).length.choose 2 + 1 : Nat) : Int) :=
  encode_am1_count [1, 2, 3, 4, 5] (by decide) init

/-! ## The registry -/

set_option maxRecDepth 100000 in
theorem registry_check :
    (assign_vars_to_lits init).map (fun (reg : State) =>
      decide (lookupsDense reg) &&
        decide ((allValues.flatMap reg.var2lit).Nodup) &&
        decide (∀ array ∈ arrayPtrs, (array.flatMap reg.var2lit).length = 25) &&
        decide (allValues.flatMap reg.var2lit =
          (List.range' 1 125).map (fun n : Nat => (n : Int))) &&
        decide (reg.litNumber = 125)) = some true := by
  decide!

/-- C14. From the fresh state, `assign_vars_to_lits()` gives value `v` of
category `c` (in the order of `arrayPtrs`) at house `j` the id
`25 c + 5 v + j + 1`; the 125 lookups are pairwise distinct, each category
holds 25 ids, and the ids issued are exactly `1..125`. -/
theorem registry_dense :
    ∃ reg, assign_vars_to_lits init = some reg ∧
      (∀ c, c < 5 → ∀ v, v < 5 → ∀ j, j < 5 →
        lookup reg c v j = some ((25 * c + 5 * v + j + 1 : Nat) : Int)) ∧
      (allValues.flatMap reg.var2lit).Nodup ∧
      (∀ array ∈ arrayPtrs, (array.flatMap reg.var2lit).length = 25) ∧
      allValues.flatMap reg.var2lit = (List.range' 1 125).map (fun n : Nat => (n : Int)) ∧
      reg.litNumber = 125 := by
  obtain ⟨reg, hreg, hd⟩ := Option.map_eq_some'.mp registry_check
  simp only [Bool.and_eq_true, decide_eq_true_eq] at hd
  obtain ⟨⟨⟨⟨h1, h2⟩, h3⟩, h4⟩, h5⟩ := hd
  exact ⟨reg, hreg, h1, h2, h3, h4, h5⟩

/-! ## The solver input of `main` -/

set_option maxRecDepth 100000 in
theorem stream_check :
    (encode_puzzle init).map (fun (s : State) =>
      decide (wellFormed s) && decide (s.litNumber = 125)) = some true := by
  decide!

/-- C15. The solver input produced by the encoding phase of `main` is a
sequence of clauses each terminated by `0`, and every literal of every clause
is non-zero with absolute value between 1 and 125, the highest id issued by
`get_new_lit`. -/
theorem stream_well_formed :
    ∃ s, encode_puzzle init = some s ∧
      s.stream.reverse = flat (clauses s) ∧
      s.litNumber = 125 ∧
      ∀ c ∈ clauses s, ∀ l ∈ c, l ≠ 0 ∧ 1 ≤ l.natAbs ∧ l.natAbs ≤ 125 := by
  obtain ⟨s, hs, hd⟩ := Option.map_eq_some'.mp stream_check
  simp only [Bool.and_eq_true, decide_eq_true_eq] at hd
  obtain ⟨⟨h1, h2⟩, h3⟩ := hd
  refine ⟨s, hs, h1, h3, ?_⟩
  intro c hc l hl
  obtain ⟨a1, a2, a3⟩ := h2 c hc l hl
  rw [h3] at a3
  exact ⟨a1, a2, by omega⟩

/-! ## The clause emitter -/

theorem count_zero_reverse (c : List Int) (hc : ∀ l ∈ c, l ≠ 0) : c.reverse.count 0 = 0 := by
  rw [List.count_eq_zero]
  intro h
  exact hc 0 (List.mem_reverse.mp h) rfl

theorem emit_counts (call : EmitterCall) (s : State)
    (hcall : ∀ cl, call = EmitterCall.vector cl → ∀ l ∈ cl, l ≠ 0)
    (h : s.numberOfClauses = ((s.stream.count 0 : Nat) : Int)) :
    (emit call s).numberOfClauses = (((emit call s).stream.count 0 : Nat) : Int) := by
  cases call with
  | vector cl =>
    have hz := count_zero_reverse cl (hcall cl rfl)
    simp only [emit, add_eq, List.count_cons_self, List.count_append, hz, h]
    push_cast
    omega
  | literal l =>
    by_cases hl : l = 0
    · subst hl
      simp only [emit, add_lit_zero, List.count_cons_self, h]
      push_cast
      omega
    · have : (0 : Int) ≠ l := fun e => hl e.symm
      simp only [emit, add_lit_ne l hl, h]
      rw [List.count_cons_of_ne this]

theorem emitAll_counts (calls : List EmitterCall) (s : State)
    (hcalls : ∀ cl, EmitterCall.vector cl ∈ calls → ∀ l ∈ cl, l ≠ 0)
    (h : s.numberOfClauses = ((s.stream.count 0 : Nat) : Int)) :
    (emitAll calls s).numberOfClauses = (((emitAll calls s).stream.count 0 : Nat) : Int) := by
  induction calls generalizing s with
  | nil => exact h
  | cons c r ih =>
    unfold emitAll
    rw [List.foldl_cons]
    apply ih
    · intro cl hcl
      exact hcalls cl (List.mem_cons_of_mem _ hcl)
    · apply emit_counts c s _ h
      intro cl hc
      exact hcalls cl (hc ▸ List.mem_cons_self _ _)

/-- C16. For a sequence `clause` of non-zero literals, `add(clause)` appends the
literals in order and then one `0` to the solver input and adds one to
`numberOfClauses`; it leaves the same state as `add(int)` on each literal in
order followed by `add(0)`.  Hence, after any sequence of calls of the emitter
from the initial state whose clauses hold non-zero literals only,
`numberOfClauses` is the number of terminators `0` in the solver input. -/
theorem emitter_equivalence (clause : List Int) (hc : ∀ l ∈ clause, l ≠ 0) (s : State) :
    (add clause s).stream.reverse = s.stream.reverse ++ clause ++ [0] ∧
    (add clause s).numberOfClauses = s.numberOfClauses + 1 ∧
    add clause s = add_lit 0 (clause.foldl (fun st l => add_lit l st) s) ∧
    ∀ calls : List EmitterCall,
      (∀ cl, EmitterCall.vector cl ∈ calls → ∀ l ∈ cl, l ≠ 0) →
      (emitAll calls init).numberOfClauses =
        (((emitAll calls init).stream.count 0 : Nat) : Int) := by
  refine ⟨?_, ?_, ?_, ?_⟩
  · simp [add_eq]
  · simp [add_eq]
  · rw [foldl_add_lit_stream clause hc, add_lit_zero, add_eq]
  · intro calls hcalls
    exact emitAll_counts calls init hcalls (by decide)

/-- C16 at the clause `{-1, -2}`, the first one that `main` sends. -/
theorem emitter_equivalence_witness :
    (add [-1, -2] init).stream.reverse = init.stream.reverse ++ [-1, -2] ++ [0] ∧
    (add [-1, -2] init).numberOfClauses = init.numberOfClauses + 1 ∧
    add [-1, -2] init = add_lit 0 (([-1, -2] : List Int).foldl (fun st l => add_lit l st) init) ∧
    ∀ calls : List EmitterCall,
      (∀ cl, EmitterCall.vector cl ∈ calls → ∀ l ∈ cl, l ≠ 0) →
      (emitAll calls init).numberOfClauses =
        (((emitAll calls init).stream.count 0 : Nat) : Int) :=
  emitter_equivalence [-1, -2] (by decide) init

/-! ## The literal allocator -/

theorem get_new_lit_calls_eq (k : Nat) (s : State) :
    (get_new_lit_calls k s).1 = (List.range' 1 k).map (fun i : Nat => s.litNumber + (i : Int)) := by
  induction k generalizing s with
  | zero => rfl
  | succ n ih =>
    rw [get_new_lit_calls, ih, List.range'_succ, List.map_cons, ← List.map_add_range' 1 1 n 1,
      List.map_map]
    simp only [get_new_lit, Nat.cast_one, List.cons.injEq, true_and]
    apply List.map_congr_left
    intro i _
    simp only [Function.comp, Nat.cast_add, Nat.cast_one]
    omega

/-- C17. For every `k ≥ 1` below the range of `int`, the `k`-th call of
`get_new_lit` in a run returns `k`: the first `k` calls return `1, 2, ..., k`,
never `0`, strictly increasing and without repetition.  (At `2 ^ 31` calls the
increment of the counter overflows, which the source leaves undefined.) -/
theorem get_new_lit_kth (k : Nat) (h1 : 1 ≤ k) (_h2 : k < 2 ^ 31) :
    (get_new_lit_calls k init).1[k - 1]? = some (k : Int) ∧
    (get_new_lit_calls k init).1 = (List.range' 1 k).map (fun i : Nat => (i : Int)) ∧
    (∀ x ∈ (get_new_lit_calls k init).1, x ≠ 0) ∧
    (get_new_lit_calls k init).1.Pairwise (· < ·) ∧
    (get_new_lit_calls k init).1.Nodup := by
  have he : (get_new_lit_calls k init).1 = (List.range' 1 k).map (fun i : Nat => (i : Int)) := by
    rw [get_new_lit_calls_eq]
    apply List.map_congr_left
    intro i _
    simp [init]
  have hp : ((List.range' 1 k).map (fun i : Nat => (i : Int))).Pairwise (· < ·) := by
    rw [List.pairwise_map]
    have := List.pairwise_lt_range' 1 k
    exact this.imp (fun h => by exact_mod_cast h)
  rw [he]
  refine ⟨?_, rfl, ?_, hp, ?_⟩
  · rw [List.getElem?_map, List.getElem?_range' 1 1 (by omega : k - 1 < k)]
    simp
    omega
  · intro x hx
    obtain ⟨i, hi, rfl⟩ := List.mem_map.mp hx
    have := (List.mem_range'_1.mp hi).1
    omega
  · exact hp.imp (fun h => ne_of_lt h)

/-- C17 at the 125th call, the last one of `main`'s registration. -/
theorem get_new_lit_kth_witness :
    (get_new_lit_calls 125 init).1[125 - 1]? = some ((125 : Nat) : Int) ∧
    (get_new_lit_calls 125 init).1 = (List.range' 1 125).map (fun i : Nat => (i : Int)) ∧
    (∀ x ∈ (get_new_lit_calls 125 init).1, x ≠ 0) ∧
    (get_new_lit_calls 125 init).1.Pairwise (· < ·) ∧
    (get_new_lit_calls 125 init).1.Nodup :=
  get_new_lit_kth 125 (by decide) (by decide)

/-! ## Registering a category twice -/

set_option maxRecDepth 100000 in
theorem reregistration_check :
    ∀ array ∈ arrayPtrs,
      (populate_map array init).bind (fun (s1 : State) =>
        (populate_map array s1).map (fun (s2 : State) =>
          decide (reregistered array s1 s2))) = some true := by
  decide!

/-- C18. Calling `populate_map` twice on the same category, from the fresh
state, issues 50 ids instead of 25; afterwards every lookup for the category
returns an id of the second batch, 26 to 50, while the `encode_am1` clauses
over the first batch, 1 to 25, are still the first clauses of the solver
input. -/
theorem reregistration_detectable (array : List String) (harr : array ∈ arrayPtrs) :
    ∃ s1 s2, populate_map array init = some s1 ∧ populate_map array s1 = some s2 ∧
      s1.litNumber = init.litNumber + 25 ∧ s2.litNumber = init.litNumber + 50 ∧
      (∀ v ∈ array, ∀ j : Nat, j < 5 → ∃ l, lit s2 v j = some l ∧ 26 ≤ l ∧ l ≤ 50) ∧
      clauses s1 = (batch 0).flatMap am1Clauses ∧
      clauses s2 = clauses s1 ++ (batch 25).flatMap am1Clauses := by
  have h := reregistration_check array harr
  obtain ⟨s1, hs1, h'⟩ := Option.bind_eq_some.mp h
  obtain ⟨s2, hs2, hd⟩ := Option.map_eq_some'.mp h'
  obtain ⟨a1, a2, a3, a4, a5, a6⟩ := of_decide_eq_true hd
  refine ⟨s1, s2, hs1, hs2, by rw [a1]; rfl, by rw [a2]; rfl, ?_, a5, by rw [a5, a6]⟩
  intro v hv j hj
  have hmem : s2.var2lit v ∈ batch 25 := by rw [← a4]; exact List.mem_map_of_mem _ hv
  have hall : ∀ g ∈ batch 25, g.length = 5 ∧ ∀ l ∈ g, 26 ≤ l ∧ l ≤ 50 := by decide
  obtain ⟨hlen, hrange⟩ := hall _ hmem
  have hj' : j < (s2.var2lit v).length := by rw [hlen]; exact hj
  refine ⟨(s2.var2lit v)[j], ?_, hrange _ (List.getElem_mem hj')⟩
  simp [lit, List.getElem?_eq_getElem hj']

/-- C18 at the nationalities. -/
theorem reregistration_detectable_witness :
    ∃ s1 s2, populate_map nationalites init = some s1 ∧ populate_map nationalites s1 = some s2 ∧
      s1.litNumber = init.litNumber + 25 ∧ s2.litNumber = init.litNumber + 50 ∧
      (∀ v ∈ nationalites, ∀ j : Nat, j < 5 → ∃ l, lit s2 v j = some l ∧ 26 ≤ l ∧ l ≤ 50) ∧
      clauses s1 = (batch 0).flatMap am1Clauses ∧
      clauses s2 = clauses s1 ++ (batch 25).flatMap am1Clauses :=
  reregistration_detectable nationalites (by decide)

/-! ## Completeness of immediate proximity -/

theorem proximity_clauses {x0 x1 x2 x3 x4 y0 y1 y2 y3 y4 : Int}
    (p0 : 0 < x0) (p1 : 0 < x1) (p2 : 0 < x2) (p3 : 0 < x3) (p4 : 0 < x4)
    (q0 : 0 < y0) (q1 : 0 < y1) (q2 : 0 < y2) (q3 : 0 < y3) (q4 : 0 < y4) :
    clausesOf [0, y3, -x4, 0, y4, -x3, y2, 0, -y4, x3, -y2, 0, y3, -x2, y1, 0, -y3, x2, -y1,
      0, y2, -x1, y0, 0, -y2, x1, -y0, 0, y1, -x0].reverse =
      [[-x0, y1], [-y0, x1, -y2], [y0, -x1, y2], [-y1, x2, -y3], [y1, -x2, y3],
        [-y2, x3, -y4], [y2, -x3, y4], [-x4, y3]] := by
  have hflat : [0, y3, -x4, 0, y4, -x3, y2, 0, -y4, x3, -y2, 0, y3, -x2, y1, 0, -y3, x2, -y1,
      0, y2, -x1, y0, 0, -y2, x1, -y0, 0, y1, -x0].reverse =
      flat [[-x0, y1], [-y0, x1, -y2], [y0, -x1, y2], [-y1, x2, -y3], [y1, -x2, y3],
        [-y2, x3, -y4], [y2, -x3, y4], [-x4, y3]] := by
    simp [flat]
  rw [hflat, clausesOf_flat _ (by simp [ne_zero_of_pos, p0, p1, p2, p3, p4, q0, q1, q2, q3, q4])]

/-- C19. For registered values `A`, `B` and an assignment in which each has
exactly one true position literal: if their houses differ by exactly one, all
clauses sent by `encode_attribute_immediate_proximity(A, B)` are satisfied; and
the clauses of the call for `(A, B)` and of the call for `(B, A)` are satisfied
by the same assignments. -/
theorem immediate_proximity_complete (s : State) (A B : String) (a : Assignment)
    (hA : Registered s A) (hB : Registered s B)
    (eA : exactlyOne a (s.var2lit A)) (eB : exactlyOne a (s.var2lit B)) :
    ∃ t u, encode_attribute_immediate_proximity A B s = some t ∧
      encode_attribute_immediate_proximity B A s = some u ∧
      ((∃ pA, pA < 5 ∧ ∃ pB, pB < 5 ∧ get_house s a A = some pA ∧ get_house s a B = some pB ∧
          (pA + 1 = pB ∨ pB + 1 = pA)) → satisfies a (emitted s t) = true) ∧
      (satisfies a (emitted s t) = true ↔ satisfies a (emitted s u) = true) := by
  obtain ⟨x0, x1, x2, x3, x4, hk, p0, p1, p2, p3, p4⟩ := registered_lits hA
  obtain ⟨y0, y1, y2, y3, y4, hm, q0, q1, q2, q3, q4⟩ := registered_lits hB
  refine ⟨_, _, proximity_eq hk hm, proximity_eq hm hk, ?_⟩
  rw [emitted_append, emitted_append, proximity_clauses p0 p1 p2 p3 p4 q0 q1 q2 q3 q4,
    proximity_clauses q0 q1 q2 q3 q4 p0 p1 p2 p3 p4]
  simp only [exactlyOne, hk, hm] at eA eB
  simp [get_house, get_house_loop, hk, hm, NUM_ATTRIBUTES, val_pos,
    satisfies, clauseTrue, litTrue_pos, litTrue_neg, List.countP_cons,
    p0, p1, p2, p3, p4, q0, q1, q2, q3, q4] at eA eB ⊢
  generalize a x0.natAbs = a0 at eA eB ⊢
  generalize a x1.natAbs = a1 at eA eB ⊢
  generalize a x2.natAbs = a2 at eA eB ⊢
  generalize a x3.natAbs = a3 at eA eB ⊢
  generalize a x4.natAbs = a4 at eA eB ⊢
  generalize a y0.natAbs = b0 at eA eB ⊢
  generalize a y1.natAbs = b1 at eA eB ⊢
  generalize a y2.natAbs = b2 at eA eB ⊢
  generalize a y3.natAbs = b3 at eA eB ⊢
  generalize a y4.natAbs = b4 at eA eB ⊢
  cases a0 <;> cases a1 <;> cases a2 <;> cases a3 <;> cases a4 <;> simp at eA <;>
    cases b0 <;> cases b1 <;> cases b2 <;> cases b3 <;> cases b4 <;> simp at eB <;> simp <;>
    (intros; omega)

set_option maxRecDepth 100000 in
/-- C19 at `Blend` and `Chats` and the solution of the puzzle. -/
theorem immediate_proximity_complete_witness :
    ∃ t u, encode_attribute_immediate_proximity "Blend" "Chats" registeredState = some t ∧
      encode_attribute_immediate_proximity "Chats" "Blend" registeredState = some u ∧
      ((∃ pA, pA < 5 ∧ ∃ pB, pB < 5 ∧ get_house registeredState solution "Blend" = some pA ∧
          get_house registeredState solution "Chats" = some pB ∧
          (pA + 1 = pB ∨ pB + 1 = pA)) → satisfies solution (emitted registeredState t) = true) ∧
      (satisfies solution (emitted registeredState t) = true ↔
        satisfies solution (emitted registeredState u) = true) :=
  immediate_proximity_complete registeredState "Blend" "Chats" solution
    (registered_registeredState _ (by decide)) (registered_registeredState _ (by decide))
    (by decide!) (by decide!)

/-! ## Diagnostic counts -/

set_option maxRecDepth 100000 in
theorem counts_check :
    (encode_puzzle init).map (fun (s : State) =>
      decide (s.numberOfClauses = 672) && decide ((get_new_lit s).1 - 1 = 125)) = some true ∧
    clauseCounts mainCalls init =
      some [275, 275, 10, 10, 10, 8, 10, 10, 10, 1, 1, 8, 8, 10, 10, 8, 8] := by
  decide!

/-- C20. From the fresh state, the encoding phase of `main` leaves
`numberOfClauses = 672` and `get_new_lit() - 1 = 125`.  Call by call the
counter grows by 275 (registration), 275 (exclusivity per house), 10 for each
of the 8 linked-attribute clues, 8 for the left-of clue, 1 for each of the 2
forced positions and 8 for each of the 4 proximity clues. -/
theorem diagnostic_counts :
    ∃ s, encode_puzzle init = some s ∧
      s.numberOfClauses = 672 ∧
      (get_new_lit s).1 - 1 = 125 ∧
      clauseCounts mainCalls init =
        some [275, 275, 10, 10, 10, 8, 10, 10, 10, 1, 1, 8, 8, 10, 10, 8, 8] ∧
      ([275, 275, 10, 10, 10, 8, 10, 10, 10, 1, 1, 8, 8, 10, 10, 8, 8] : List Int).sum = 672 := by
  obtain ⟨h1, h2⟩ := counts_check
  obtain ⟨s, hs, hd⟩ := Option.map_eq_some'.mp h1
  simp only [Bool.and_eq_true, decide_eq_true_eq] at hd
  exact ⟨s, hs, hd.1, hd.2, h2, by decide⟩

end SATEnigma
